import Mathlib

/-!
Verification development for the investments-dash-service portfolio engine
(`src/app/api/investments.py`, `src/app/schemas/investment.py`,
`src/app/models/investment.py`).

Shallow embedding conventions:
* Python `float` values are modelled as exact rationals (`ℚ`);
  `round(x, 2)` is modelled by `round2`.
* `datetime.date` is modelled by `PDate` (proleptic Gregorian calendar, as
  CPython's `datetime` module); `date.isocalendar()` is implemented following
  the CPython algorithm (`_isoweek1monday` and the week/day divmod).
* SQLAlchemy rows/queries over the `investments` table are modelled as a
  `List Investment` ledger; `filter` is list filtering, `group_by` groups by
  first occurrence of the key, `func.sum` is a list sum, `func.max` a maximal
  non-null value, `order_by` an insertion sort.
* Python dicts keyed by strings are association lists preserving insertion
  order; period-key strings are `List Char` compared by code points exactly as
  Python compares `str` values.
* Python truthiness tests (`if user_id:`, `if inv.current_price:`,
  `x or y`) are modelled by explicit `truthy…`/`pyOr` helpers: `None` and `0`
  are falsy.
* `HTTPException` error responses are modelled by the `SellError` inductive
  whose constructors carry the data interpolated into the detail message.
-/

namespace InvDash

/-- `InvestmentType` enum from `src/app/models/investment.py`. -/
inductive InvestmentType where
  | stocks | crypto | shares | gold | real_estate | bonds | other
deriving DecidableEq, Repr

/-- A calendar date (year, month, day), modelling Python `datetime.date`. -/
structure PDate where
  year : Nat
  month : Nat
  day : Nat
deriving DecidableEq, Repr

/-- A row of the `investments` table (`src/app/models/investment.py`).
`id`, `created_at`, `updated_at` are omitted: no claim depends on them. -/
structure Investment where
  user_id : Option Int
  name : String
  symbol : String
  investment_type : InvestmentType
  amount : ℚ
  purchase_price : ℚ
  purchase_date : PDate
  description : Option String
  current_price : Option ℚ
deriving DecidableEq, Repr

/-- Python truthiness of an `Optional[int]`: `None` and `0` are falsy. -/
def truthyUserId : Option Int → Bool
  | none => false
  | some v => v != 0

/-- Python truthiness of an `Optional[float]`: `None` and `0.0` are falsy. -/
def truthyPrice : Option ℚ → Bool
  | none => false
  | some c => c != 0

/-- Python `x or y` for `x : Optional[float]`, `y : float`. -/
def pyOr (x : Option ℚ) (y : ℚ) : ℚ :=
  if truthyPrice x then x.getD y else y

/-- Python `round(x, 2)` (exact-rational model; CPython rounds ties to even on
floats, but no verified statement touches a tie). -/
def round2 (q : ℚ) : ℚ := (round (q * 100) : ℚ) / 100

/-- The guarded average-price expression
`total_bought_value / net_amount if net_amount > 0 else 0` that appears in
`get_portfolio_overview`, `get_earnings_analysis` and
`get_available_positions`. -/
def avgPrice (net tbv : ℚ) : ℚ := if 0 < net then tbv / net else 0

/-- Python division, which raises `ZeroDivisionError` on a zero denominator:
modelled as `none` in that case. -/
def pyDiv (a b : ℚ) : Option ℚ := if b = 0 then none else some (a / b)

/-- The average-price expression with the division modelled as the fallible
Python operation: `some` result means no `ZeroDivisionError` is raised. -/
def avgPriceChecked (net tbv : ℚ) : Option ℚ :=
  if 0 < net then pyDiv tbv net else some 0

/-! ## Calendar (CPython `datetime` internals) -/

/-- Gregorian leap year. -/
def isLeap (y : Nat) : Bool := (y % 4 == 0 && y % 100 != 0) || y % 400 == 0

/-- Number of days in a month of a given year. -/
def daysInMonth (y m : Nat) : Nat :=
  if m = 2 then (if isLeap y then 29 else 28)
  else if m = 4 ∨ m = 6 ∨ m = 9 ∨ m = 11 then 30
  else 31

/-- Days in the year strictly before month `m` (for a year of leapness `l`). -/
def daysBeforeMonth (l : Bool) (m : Nat) : Nat :=
  match m with
  | 1 => 0
  | 2 => 31
  | 3 => 59 + (if l then 1 else 0)
  | 4 => 90 + (if l then 1 else 0)
  | 5 => 120 + (if l then 1 else 0)
  | 6 => 151 + (if l then 1 else 0)
  | 7 => 181 + (if l then 1 else 0)
  | 8 => 212 + (if l then 1 else 0)
  | 9 => 243 + (if l then 1 else 0)
  | 10 => 273 + (if l then 1 else 0)
  | 11 => 304 + (if l then 1 else 0)
  | _ => 334 + (if l then 1 else 0)

/-- 1-based ordinal of the date within its year. -/
def ordinalInYear (d : PDate) : Nat := daysBeforeMonth (isLeap d.year) d.month + d.day

/-- Days from 0001-01-01 up to the start of year `y`
(= `date(y,1,1).toordinal() - 1` in Python). -/
def daysBeforeYear (y : Nat) : Nat :=
  let n := y - 1
  365 * n + n / 4 + n / 400 - n / 100

/-- Python `date.toordinal()`: 0001-01-01 is day 1. -/
def toOrdinal (d : PDate) : Nat := daysBeforeYear d.year + ordinalInYear d

/-- CPython `_isoweek1monday(year)`: ordinal of the Monday starting ISO week 1
of `year`. -/
def isoweek1monday (year : Nat) : Int :=
  let firstday : Int := (daysBeforeYear year : Int) + 1
  let firstweekday : Int := (firstday + 6) % 7
  let week1monday := firstday - firstweekday
  if firstweekday > 3 then week1monday + 7 else week1monday

/-- CPython `date.isocalendar()` restricted to the (ISO year, ISO week) pair. -/
def isocalendar (d : PDate) : Nat × Nat :=
  let year := d.year
  let today : Int := (toOrdinal d : Int)
  let week : Int := Int.fdiv (today - isoweek1monday year) 7
  if week < 0 then
    (year - 1, (Int.fdiv (today - isoweek1monday (year - 1)) 7 + 1).toNat)
  else if week ≥ 52 ∧ today ≥ isoweek1monday (year + 1) then
    (year + 1, 1)
  else
    (year, (week + 1).toNat)

/-! ## Period keys (the `get_period_key` helper) -/

/-- Period-key strings are `List Char`, compared by code points as Python
compares `str`. -/
abbrev Key := List Char

/-- `aggregate_by` values admitted by the `Query(..., regex="^(day|week|month|year)$")`
parameter of `get_earnings_analysis`. -/
inductive Granularity where
  | day | week | month | year
deriving DecidableEq, Repr

/-- Zero-padded fixed-width decimal digits (`f"{n:0wd}"` for `n < 10^w`),
most significant digit first, as digit values. -/
def padDigits (w n : Nat) : List Nat :=
  match w with
  | 0 => []
  | w + 1 => padDigits w (n / 10) ++ [n % 10]

/-- Unpadded decimal digits of `n` (`str(n)` / `f"{n}"`), as digit values. -/
def natDigits (n : Nat) : List Nat :=
  if _h : n < 10 then [n]
  else natDigits (n / 10) ++ [n % 10]
decreasing_by exact Nat.div_lt_self (by omega) (by omega)

/-- Digit value to character. -/
def digitCh (n : Nat) : Char := Char.ofNat (48 + n)

/-- `f"{n:02d}"` as characters. -/
def pad2 (n : Nat) : List Char := (padDigits 2 n).map digitCh

/-- `f"{n:04d}"` as characters. -/
def pad4 (n : Nat) : List Char := (padDigits 4 n).map digitCh

/-- `str(n)` as characters. -/
def natStr (n : Nat) : List Char := (natDigits n).map digitCh

/-- `get_period_key(purchase_date, aggregate_by)` from `get_earnings_analysis`:
`day` is `date.isoformat()`, `week` is `f"{year}-W{week:02d}"` over
`isocalendar`, `month` is `strftime("%Y-%m")`, `year` is `str(year)`. -/
def get_period_key (purchase_date : PDate) (aggregate_by : Granularity) : Key :=
  match aggregate_by with
  | .day => pad4 purchase_date.year ++ ['-'] ++ pad2 purchase_date.month
              ++ ['-'] ++ pad2 purchase_date.day
  | .week =>
    let yw := isocalendar purchase_date
    natStr yw.1 ++ ['-', 'W'] ++ pad2 yw.2
  | .month => pad4 purchase_date.year ++ ['-'] ++ pad2 purchase_date.month
  | .year => natStr purchase_date.year

/-- Lexicographic comparison of numeric tuples (used as the chronological
order on period buckets: year-first, then week/month/day number). -/
def lexNatLt : List Nat → List Nat → Bool
  | [], [] => false
  | [], _ :: _ => true
  | _ :: _, [] => false
  | a :: as, b :: bs => decide (a < b) || (a == b && lexNatLt as bs)

/-- The period bucket of a date, as the numeric tuple identifying it:
calendar (year, month, day) for `day`, ISO (week-year, week number) for
`week`, (year, month) for `month`, (year) for `year`. Chronological order on
buckets is lexicographic order on these tuples. -/
def bucketOf (aggregate_by : Granularity) (d : PDate) : List Nat :=
  match aggregate_by with
  | .day => [d.year, d.month, d.day]
  | .week => [(isocalendar d).1, (isocalendar d).2]
  | .month => [d.year, d.month]
  | .year => [d.year]

/-- A well-formed calendar date (as `datetime.date` guarantees). -/
def ValidDate (d : PDate) : Prop :=
  1 ≤ d.month ∧ d.month ≤ 12 ∧ 1 ≤ d.day ∧ d.day ≤ daysInMonth d.year d.month

/-- Python `<` on strings: code-point lexicographic comparison. -/
def strLt : List Char → List Char → Bool
  | [], [] => false
  | [], _ :: _ => true
  | _ :: _, [] => false
  | a :: as, b :: bs =>
    decide (a.toNat < b.toNat) || (a == b && strLt as bs)

/-- Python `<=` on strings. -/
def strLe (a b : Key) : Bool := !strLt b a

/-- The `≤` relation used to model Python's `sorted` on period keys. -/
def keyLe (a b : Key) : Prop := strLe a b = true

instance : DecidableRel keyLe := fun a b =>
  inferInstanceAs (Decidable (strLe a b = true))

/-! ## Date ordering (SQL `order_by(purchase_date)`) -/

/-- Chronological (lexicographic year/month/day) comparison of dates. -/
def dateLeB (a b : PDate) : Bool :=
  decide (a.year < b.year) ||
  (a.year == b.year && (decide (a.month < b.month) ||
    (a.month == b.month && decide (a.day ≤ b.day))))

/-- Relation form of `dateLeB`, used with `List.insertionSort`. -/
def dateLe (a b : PDate) : Prop := dateLeB a b = true

instance : DecidableRel dateLe := fun a b =>
  inferInstanceAs (Decidable (dateLeB a b = true))

/-- `order_by(Investment.purchase_date)` comparison on rows. -/
def invDateLe (a b : Investment) : Prop := dateLe a.purchase_date b.purchase_date

instance : DecidableRel invDateLe := fun a b =>
  inferInstanceAs (Decidable (dateLe a.purchase_date b.purchase_date))

/-! ## Query filters -/

/-- `if user_id: query = query.filter(Investment.user_id == user_id)`. -/
def filterUser (user_id : Option Int) (l : List Investment) : List Investment :=
  if truthyUserId user_id then l.filter (fun t => t.user_id == user_id) else l

/-- `if investment_type: query = query.filter(Investment.investment_type == investment_type)`
(an enum member is always truthy). -/
def filterType (investment_type : Option InvestmentType) (l : List Investment) :
    List Investment :=
  match investment_type with
  | some ty => l.filter (fun t => t.investment_type == ty)
  | none => l

/-! ## Position accumulation (`get_earnings_analysis` running positions) -/

/-- The running per-symbol position record
`{"net_amount": …, "total_bought_value": …, "current_price": …}`. -/
structure PosData where
  net_amount : ℚ
  total_bought_value : ℚ
  current_price : Option ℚ
deriving DecidableEq, Repr

def lookupPos : List (String × PosData) → String → Option PosData
  | [], _ => none
  | (s', p) :: rest, s => if s = s' then some p else lookupPos rest s

def setPos : List (String × PosData) → String → PosData → List (String × PosData)
  | [], _, _ => []
  | (s', p') :: rest, s, p =>
    if s = s' then (s', p) :: rest else (s', p') :: setPos rest s p

/-- The per-transaction update:
`net_amount += amount`; `if amount > 0: total_bought_value += amount*price`;
`if inv.current_price: current_price = inv.current_price`. -/
def applyTx (p : PosData) (inv : Investment) : PosData :=
  { net_amount := p.net_amount + inv.amount
    total_bought_value := p.total_bought_value +
      (if 0 < inv.amount then inv.amount * inv.purchase_price else 0)
    current_price :=
      if truthyPrice inv.current_price then inv.current_price else p.current_price }

/-- One iteration of the transaction loop: insert the symbol if absent
(initialised with `net_amount = 0`, `total_bought_value = 0` and the
transaction's raw `current_price`), then update the symbol's entry in place. -/
def foldTx (ps : List (String × PosData)) (inv : Investment) :
    List (String × PosData) :=
  match lookupPos ps inv.symbol with
  | some p => setPos ps inv.symbol (applyTx p inv)
  | none => ps ++ [(inv.symbol, applyTx ⟨0, 0, inv.current_price⟩ inv)]

/-! ## Period grouping -/

/-- Append `inv` to the bucket of key `k`, preserving dict insertion order. -/
def addToGroups (groups : List (Key × List Investment)) (k : Key)
    (inv : Investment) : List (Key × List Investment) :=
  match groups with
  | [] => [(k, [inv])]
  | (k', l) :: rest =>
    if k = k' then (k', l ++ [inv]) :: rest
    else (k', l) :: addToGroups rest k inv

/-- `investments_by_period`: group the (date-sorted) transactions by period key. -/
def groupByPeriod (aggregate_by : Granularity) (invs : List Investment) :
    List (Key × List Investment) :=
  invs.foldl (fun gs inv => addToGroups gs (get_period_key inv.purchase_date aggregate_by) inv) []

def lookupGroup (groups : List (Key × List Investment)) (k : Key) :
    List Investment :=
  match groups with
  | [] => []
  | (k', l) :: rest => if k = k' then l else lookupGroup rest k

/-! ## Snapshots and the cumulative loop -/

/-- One element of the `get_earnings_analysis` result list. -/
structure Snapshot where
  date : Key
  invested : ℚ
  current_value : ℚ
  profit_loss : ℚ
  count : Nat
deriving DecidableEq, Repr

/-- One iteration of the per-snapshot totals loop over the running positions. -/
def snapTotStep (acc : ℚ × ℚ × Nat) (e : String × PosData) : ℚ × ℚ × Nat :=
  let p := e.2
  if 0 < p.net_amount then
    let avg := avgPrice p.net_amount p.total_bought_value
    let position_invested := avg * p.net_amount
    let current_price := pyOr p.current_price avg
    let position_current_value := current_price * p.net_amount
    (acc.1 + position_invested, acc.2.1 + position_current_value, acc.2.2 + 1)
  else acc

/-- The cumulative totals over the current positions:
`(cumulative_invested, cumulative_current_value, cumulative_count)`. -/
def snapshotTotals (ps : List (String × PosData)) : ℚ × ℚ × Nat :=
  ps.foldl snapTotStep (0, 0, 0)

/-- The snapshot appended to `result` for one period. -/
def mkSnapshot (k : Key) (ps : List (String × PosData)) : Snapshot :=
  let t := snapshotTotals ps
  { date := k
    invested := round2 t.1
    current_value := round2 t.2.1
    profit_loss := round2 (t.2.1 - t.1)
    count := t.2.2 }

/-- Fold all transactions of period `k` into the running positions. -/
def foldPeriod (groups : List (Key × List Investment))
    (ps : List (String × PosData)) (k : Key) : List (String × PosData) :=
  (lookupGroup groups k).foldl foldTx ps

/-- The `for period_key in sorted_periods` loop: fold the period's
transactions, then emit a snapshot. -/
def emitLoop (groups : List (Key × List Investment))
    (ps : List (String × PosData)) : List Key → List Snapshot
  | [] => []
  | k :: rest =>
    let ps' := foldPeriod groups ps k
    mkSnapshot k ps' :: emitLoop groups ps' rest

/-- `get_earnings_analysis` (`src/app/api/investments.py` lines 131–263). -/
def get_earnings_analysis (ledger : List Investment) (user_id : Option Int)
    (investment_type : Option InvestmentType)
    (start_date end_date : Option PDate) (aggregate_by : Granularity) :
    List Snapshot :=
  let investments :=
    List.insertionSort invDateLe (filterType investment_type (filterUser user_id ledger))
  if investments.isEmpty then [] else
  let groups := groupByPeriod aggregate_by investments
  let allKeys := List.insertionSort keyLe (groups.map (·.1))
  let disp1 :=
    match start_date with
    | some sd => allKeys.filter (fun p => strLe (get_period_key sd aggregate_by) p)
    | none => allKeys
  let disp :=
    match end_date with
    | some ed => disp1.filter (fun p => strLe p (get_period_key ed aggregate_by))
    | none => disp1
  let ps0 : List (String × PosData) :=
    match start_date with
    | some _ =>
      match disp with
      | d0 :: _ => (allKeys.filter (fun p => strLt p d0)).foldl (foldPeriod groups) []
      | [] => []
    | none => []
  emitLoop groups ps0 disp

/-! ## Portfolio overview (`get_portfolio_overview`) -/

/-- Python `round(x, n)` for `n` decimal places (exact-rational model). -/
def roundN (n : Nat) (q : ℚ) : ℚ := (round (q * 10 ^ n) : ℚ) / 10 ^ n

/-- One row of the grouped overview SQL query. -/
structure OverviewRow where
  symbol : String
  investment_type : InvestmentType
  net_amount : ℚ
  total_bought_value : ℚ
  current_price : Option ℚ
deriving DecidableEq, Repr

/-- `GROUP BY` keys `(symbol, investment_type)` in first-occurrence order. -/
def distinctPairs (l : List Investment) : List (String × InvestmentType) :=
  l.foldl
    (fun acc t =>
      if (t.symbol, t.investment_type) ∈ acc then acc
      else acc ++ [(t.symbol, t.investment_type)]) []

/-- The rows of a `(symbol, investment_type)` group. -/
def groupTxs (l : List Investment) (s : String) (ty : InvestmentType) :
    List Investment :=
  l.filter (fun t => t.symbol == s && t.investment_type == ty)

/-- SQL `max` over a nullable column: `NULL` values are ignored; `NULL` iff
the group has no non-null value. -/
def maxPrice (l : List (Option ℚ)) : Option ℚ :=
  l.foldl
    (fun acc c =>
      match acc, c with
      | none, c => c
      | some m, none => some m
      | some m, some c => some (max m c)) none

/-- `sum(case((amount > 0, amount * purchase_price), else_=0))` over a group. -/
def groupBoughtValue (g : List Investment) : ℚ :=
  (g.map (fun t => if 0 < t.amount then t.amount * t.purchase_price else 0)).sum

/-- `sum(amount)` over a group. -/
def groupNetAmount (g : List Investment) : ℚ := (g.map (·.amount)).sum

/-- The grouped overview query
(`db.query(symbol, investment_type, sum(amount), sum(case(...)), max(current_price)).group_by(...)`). -/
def overviewRows (l : List Investment) : List OverviewRow :=
  (distinctPairs l).map (fun p =>
    let g := groupTxs l p.1 p.2
    { symbol := p.1
      investment_type := p.2
      net_amount := groupNetAmount g
      total_bought_value := groupBoughtValue g
      current_price := maxPrice (g.map (·.current_price)) })

/-- One `by_type` bucket of the overview response. -/
structure TypeAgg where
  count : Nat
  invested : ℚ
  current_value : ℚ
  profit_loss : ℚ
deriving DecidableEq, Repr

/-- The overview response (the `by_type` dict as an insertion-ordered
association list). -/
structure Overview where
  total_investments : Nat
  total_invested : ℚ
  total_current_value : ℚ
  total_profit_loss : ℚ
  profit_loss_percentage : ℚ
  by_type : List (InvestmentType × TypeAgg)
deriving DecidableEq, Repr

/-- `by_type[type_key]` update: create the bucket if absent, then add the
position's contributions. -/
def updateByType (bt : List (InvestmentType × TypeAgg)) (ty : InvestmentType)
    (inv cv : ℚ) : List (InvestmentType × TypeAgg) :=
  match bt with
  | [] => [(ty, ⟨1, inv, cv, cv - inv⟩)]
  | (ty', a) :: rest =>
    if ty = ty' then
      (ty', ⟨a.count + 1, a.invested + inv, a.current_value + cv,
             a.profit_loss + (cv - inv)⟩) :: rest
    else (ty', a) :: updateByType rest ty inv cv

/-- Accumulator of the overview loop:
`(total_invested, total_current_value, active_positions, by_type)`. -/
def overviewStep (acc : ℚ × ℚ × Nat × List (InvestmentType × TypeAgg))
    (row : OverviewRow) : ℚ × ℚ × Nat × List (InvestmentType × TypeAgg) :=
  if 0 < row.net_amount then
    let avg_purchase_price := avgPrice row.net_amount row.total_bought_value
    let position_invested := avg_purchase_price * row.net_amount
    let current_price := pyOr row.current_price avg_purchase_price
    let position_current_value := current_price * row.net_amount
    (acc.1 + position_invested, acc.2.1 + position_current_value, acc.2.2.1 + 1,
     updateByType acc.2.2.2 row.investment_type position_invested
       position_current_value)
  else acc

/-- `get_portfolio_overview` (`src/app/api/investments.py` lines 46–128). -/
def get_portfolio_overview (ledger : List Investment) (user_id : Option Int)
    (investment_type : Option InvestmentType) : Overview :=
  let positions := overviewRows (filterType investment_type (filterUser user_id ledger))
  let st := positions.foldl overviewStep (0, 0, 0, [])
  let total_invested := st.1
  let total_current_value := st.2.1
  let total_profit_loss := total_current_value - total_invested
  let profit_loss_percentage :=
    if 0 < total_invested then total_profit_loss / total_invested * 100 else 0
  { total_investments := st.2.2.1
    total_invested := round2 total_invested
    total_current_value := round2 total_current_value
    total_profit_loss := round2 total_profit_loss
    profit_loss_percentage := round2 profit_loss_percentage
    by_type := st.2.2.2 }

/-! ## Available positions (`get_available_positions`) -/

/-- The `AvailablePosition` response schema. The `current_price` field is the
computed `pos.current_price or average_purchase_price` value, always a number. -/
structure AvailablePosition where
  symbol : String
  name : String
  investment_type : InvestmentType
  available_amount : ℚ
  average_purchase_price : ℚ
  current_price : ℚ
  total_invested : ℚ
  total_current_value : ℚ
  unrealized_profit_loss : ℚ
deriving DecidableEq, Repr

/-- `GROUP BY` keys `(symbol, name, investment_type)` in first-occurrence
order. -/
def distinctTriples (l : List Investment) :
    List (String × String × InvestmentType) :=
  l.foldl
    (fun acc t =>
      if (t.symbol, t.name, t.investment_type) ∈ acc then acc
      else acc ++ [(t.symbol, t.name, t.investment_type)]) []

/-- The rows of a `(symbol, name, investment_type)` group. -/
def groupTxs3 (l : List Investment) (s n : String) (ty : InvestmentType) :
    List Investment :=
  l.filter (fun t => t.symbol == s && t.name == n && t.investment_type == ty)

/-- `sum(amount * purchase_price)` over a group — note: over ALL rows of the
group, with no `amount > 0` case guard (unlike the overview query). -/
def groupInvestedAll (g : List Investment) : ℚ :=
  (g.map (fun t => t.amount * t.purchase_price)).sum

/-- `get_available_positions` (`src/app/api/investments.py` lines 337–391). -/
def get_available_positions (ledger : List Investment) (user_id : Option Int)
    (investment_type : Option InvestmentType) : List AvailablePosition :=
  let rows := filterType investment_type (filterUser user_id ledger)
  ((distinctTriples rows).filter
      (fun p => decide (0 < groupNetAmount (groupTxs3 rows p.1 p.2.1 p.2.2)))).map
    (fun p =>
      let g := groupTxs3 rows p.1 p.2.1 p.2.2
      let net_amount := groupNetAmount g
      let total_invested := groupInvestedAll g
      let average_purchase_price := avgPrice net_amount total_invested
      let current_price := pyOr (maxPrice (g.map (·.current_price))) average_purchase_price
      let total_current_value := current_price * net_amount
      { symbol := p.1
        name := p.2.1
        investment_type := p.2.2
        available_amount := roundN 6 net_amount
        average_purchase_price := round2 average_purchase_price
        current_price := current_price
        total_invested := round2 total_invested
        total_current_value := round2 total_current_value
        unrealized_profit_loss := round2 (total_current_value - total_invested) })

/-! ## Selling (`sell_investment`) -/

/-- The `InvestmentSell` request schema (fields only; the pydantic constraints
are `investmentSellValid`). -/
structure InvestmentSell where
  user_id : Option Int
  symbol : String
  amount : ℚ
  sale_price : ℚ
  sale_date : PDate
  description : Option String
deriving DecidableEq, Repr

/-- The `HTTPException`s raised by `sell_investment`, with the data
interpolated into each `detail` message:
* `notFound`: 404, `f"No investment found with symbol {symbol}"`;
* `insufficientAmount`: 400, `f"Insufficient amount to sell. Available:
  {available_amount}, Requested: {sell_data.amount}"` — the constructor
  carries exactly the two quantities the message reports;
* `referenceNotFound`: 404, `f"Investment with symbol {symbol} not found"`. -/
inductive SellError where
  | notFound (symbol : String)
  | insufficientAmount (available requested : ℚ)
  | referenceNotFound (symbol : String)
deriving DecidableEq, Repr

/-- `query(func.sum(amount)).filter(symbol == …)[.filter(user_id == …)].scalar() or 0`. -/
def availableAmount (ledger : List Investment) (symbol : String)
    (user_id : Option Int) : ℚ :=
  ((filterUser user_id (ledger.filter (fun t => t.symbol == symbol))).map
    (·.amount)).sum

/-- The sell transaction row created on success: negative amount, the sale
price and date, no current price; `name`/`investment_type` copied from the
reference row. -/
def mkSellTx (sell_data : InvestmentSell) (ref : Investment) : Investment :=
  { user_id := sell_data.user_id
    name := ref.name
    symbol := sell_data.symbol
    investment_type := ref.investment_type
    amount := -|sell_data.amount|
    purchase_price := sell_data.sale_price
    purchase_date := sell_data.sale_date
    description := sell_data.description
    current_price := none }

/-- `sell_investment` (`src/app/api/investments.py` lines 394–454): on success
returns the extended ledger and the created row. -/
def sell_investment (ledger : List Investment) (sell_data : InvestmentSell) :
    Except SellError (List Investment × Investment) :=
  let available_amount := availableAmount ledger sell_data.symbol sell_data.user_id
  if available_amount ≤ 0 then .error (.notFound sell_data.symbol)
  else if available_amount < sell_data.amount then
    .error (.insufficientAmount available_amount sell_data.amount)
  else
    match ledger.find? (fun t => t.symbol == sell_data.symbol) with
    | none => .error (.referenceNotFound sell_data.symbol)
    | some reference_inv =>
      let tx := mkSellTx sell_data reference_inv
      .ok (ledger ++ [tx], tx)

/-- The ledger after a sell request: unchanged when the request fails. -/
def sellResultLedger (ledger : List Investment) (sell_data : InvestmentSell) :
    List Investment :=
  match sell_investment ledger sell_data with
  | .ok p => p.1
  | .error _ => ledger

/-- The error produced by a sell request, if any. -/
def sellErrorOf (ledger : List Investment) (sell_data : InvestmentSell) :
    Option SellError :=
  match sell_investment ledger sell_data with
  | .ok _ => none
  | .error e => some e

/-! ## Pydantic validation (`src/app/schemas/investment.py`) -/

/-- The `InvestmentCreate` request payload. -/
structure InvestmentCreate where
  name : String
  symbol : String
  investment_type : InvestmentType
  amount : ℚ
  purchase_price : ℚ
  purchase_date : PDate
  description : Option String
  current_price : Option ℚ
  user_id : Option Int
deriving DecidableEq, Repr

/-- `Field(..., min_length=a, max_length=b)` on a required string. -/
def validStr (minl maxl : Nat) (s : String) : Bool :=
  minl ≤ s.length && s.length ≤ maxl

/-- `Field(None, max_length=b)` on an optional string. -/
def validOptStr (maxl : Nat) : Option String → Bool
  | none => true
  | some s => s.length ≤ maxl

/-- `Field(None, gt=0)` on an optional number. -/
def validOptPos : Option ℚ → Bool
  | none => true
  | some c => decide (0 < c)

/-- Pydantic validation of `InvestmentCreate` (fields of `InvestmentBase`):
`name` 1–255 chars, `symbol` 1–50 chars, `purchase_price > 0`,
`description` ≤ 1000 chars, `current_price > 0` when present.
The `amount` field carries NO constraint
(`Field(..., description="Amount/quantity (positive for buy, negative for sell)")`). -/
def investmentCreateValid (r : InvestmentCreate) : Bool :=
  validStr 1 255 r.name && validStr 1 50 r.symbol &&
  decide (0 < r.purchase_price) && validOptStr 1000 r.description &&
  validOptPos r.current_price

/-- Pydantic validation of `InvestmentSell`: `symbol` 1–50 chars,
`amount > 0`, `sale_price > 0`, `description` ≤ 1000 chars. -/
def investmentSellValid (r : InvestmentSell) : Bool :=
  validStr 1 50 r.symbol && decide (0 < r.amount) &&
  decide (0 < r.sale_price) && validOptStr 1000 r.description

/-! ## Transaction listing (`get_investments`) -/

/-- `order_by(Investment.purchase_date.desc())` comparison. -/
def invDateGe (a b : Investment) : Prop := dateLe b.purchase_date a.purchase_date

instance : DecidableRel invDateGe := fun a b =>
  inferInstanceAs (Decidable (dateLe b.purchase_date a.purchase_date))

/-- `get_investments` (`src/app/api/investments.py` lines 20–43). -/
def get_investments (ledger : List Investment) (skip limit : Nat)
    (user_id : Option Int) (investment_type : Option InvestmentType)
    (start_date end_date : Option PDate) : List Investment :=
  let q := filterType investment_type (filterUser user_id ledger)
  let q :=
    match start_date with
    | some sd => q.filter (fun t => dateLeB sd t.purchase_date)
    | none => q
  let q :=
    match end_date with
    | some ed => q.filter (fun t => dateLeB t.purchase_date ed)
    | none => q
  ((List.insertionSort invDateGe q).drop skip).take limit

/-- The display window of `get_earnings_analysis` as a predicate on period
keys (`p >= start_key` and `p <= end_key`, each only when the bound is
given). -/
def inWindow (sd ed : Option PDate) (aggregate_by : Granularity) (k : Key) : Bool :=
  (match sd with
   | some d => strLe (get_period_key d aggregate_by) k
   | none => true) &&
  (match ed with
   | some d => strLe k (get_period_key d aggregate_by)
   | none => true)

/-! ## Per-symbol characterisations of the position fold (proof-side
specifications, used to relate the earnings fold to the overview query) -/

/-- The distinct symbols of a transaction list, in first-occurrence order. -/
def symList (txs : List Investment) : List String :=
  txs.foldl (fun acc t => if t.symbol ∈ acc then acc else acc ++ [t.symbol]) []

/-- Net amount of a symbol over a transaction list. -/
def symNet (txs : List Investment) (s : String) : ℚ :=
  ((txs.filter (fun t => t.symbol == s)).map (·.amount)).sum

/-- Buys-only bought value of a symbol over a transaction list. -/
def symTbv (txs : List Investment) (s : String) : ℚ :=
  ((txs.filter (fun t => t.symbol == s)).map
    (fun t => if 0 < t.amount then t.amount * t.purchase_price else 0)).sum

/-- The `current_price` tracked by the running-position fold for a symbol:
`none` while the symbol is unseen, then the first transaction's raw
`current_price` updated by every later truthy `current_price`. -/
def cpFold (txs : List Investment) (s : String) : Option (Option ℚ) :=
  txs.foldl
    (fun acc t =>
      if t.symbol == s then
        some (match acc with
          | none => t.current_price
          | some c => if truthyPrice t.current_price then t.current_price else c)
      else acc) none

/-- Whether a symbol carries any truthy (non-null, non-zero) mark price. -/
def hasTruthyB (txs : List Investment) (s : String) : Bool :=
  txs.any (fun t => t.symbol == s && truthyPrice t.current_price)

/-- The contribution of one running-position entry to `cumulative_invested`. -/
def entryInvested (e : String × PosData) : ℚ :=
  if 0 < e.2.net_amount then
    avgPrice e.2.net_amount e.2.total_bought_value * e.2.net_amount
  else 0

/-- The contribution of one running-position entry to
`cumulative_current_value`. -/
def entryCV (e : String × PosData) : ℚ :=
  if 0 < e.2.net_amount then
    pyOr e.2.current_price (avgPrice e.2.net_amount e.2.total_bought_value) *
      e.2.net_amount
  else 0

/-- The contribution of one running-position entry to `cumulative_count`. -/
def entryCnt (e : String × PosData) : Nat :=
  if 0 < e.2.net_amount then 1 else 0

/-- The per-symbol invested contribution, computed from the raw filtered
transactions (`avg * net`, 0 for non-positive net positions). -/
def invOf (F : List Investment) (s : String) : ℚ :=
  if 0 < symNet F s then avgPrice (symNet F s) (symTbv F s) * symNet F s else 0

/-- The per-symbol current-value contribution, computed from the raw filtered
transactions (effective price times net, 0 for non-positive net positions). -/
def cvOf (F : List Investment) (s : String) : ℚ :=
  if 0 < symNet F s then
    pyOr (maxPrice ((F.filter (fun t => t.symbol == s)).map (·.current_price)))
      (avgPrice (symNet F s) (symTbv F s)) * symNet F s
  else 0

/-- The contribution of one overview row to `total_invested`. -/
def rowInvested (row : OverviewRow) : ℚ :=
  if 0 < row.net_amount then
    avgPrice row.net_amount row.total_bought_value * row.net_amount
  else 0

/-- The contribution of one overview row to `total_current_value`. -/
def rowCV (row : OverviewRow) : ℚ :=
  if 0 < row.net_amount then
    pyOr row.current_price (avgPrice row.net_amount row.total_bought_value) *
      row.net_amount
  else 0

/-! ## Concrete scenarios used by the claims -/

/-- Buy AAPL 10 units at price 100 on 2024-01-05. -/
def c1Tx1 : Investment :=
  { user_id := none
    name := "Apple"
    symbol := "AAPL"
    investment_type := .stocks
    amount := 10
    purchase_price := 100
    purchase_date := ⟨2024, 1, 5⟩
    description := none
    current_price := none }

/-- Buy AAPL 5 units at price 120 on 2024-02-10. -/
def c1Tx2 : Investment :=
  { c1Tx1 with amount := 5, purchase_price := 120, purchase_date := ⟨2024, 2, 10⟩ }

/-- Sell AAPL 3 units at price 150 on 2024-03-01. -/
def c1Tx3 : Investment :=
  { c1Tx1 with amount := -3, purchase_price := 150, purchase_date := ⟨2024, 3, 1⟩ }

/-- The C1 scenario ledger. -/
def c1Ledger : List Investment := [c1Tx1, c1Tx2, c1Tx3]

/-- Buy AAPL 1 unit at 10 with mark price 200 on 2024-01-05 (C2
counterexample). -/
def c2Tx1 : Investment :=
  { c1Tx1 with amount := 1, purchase_price := 10, current_price := some 200 }

/-- Buy AAPL 1 unit at 10 with mark price 100 on 2024-02-01 (C2
counterexample): the overview takes `max(current_price) = 200` while the
earnings fold keeps the chronologically last mark `100`. -/
def c2Tx2 : Investment :=
  { c2Tx1 with purchase_date := ⟨2024, 2, 1⟩, current_price := some 100 }

/-- Buy AAPL 10 units at 100 (used for the C3 counterexample). -/
def c3Buy : Investment := c1Tx1

/-- Sell AAPL 3 units at 150 (stored as amount −3), for the C3 counterexample. -/
def c3Sell : Investment := c1Tx3

/-- A sell request for 15 AAPL (used as concrete input for C4/C5 witnesses). -/
def c4Req : InvestmentSell :=
  { user_id := none
    symbol := "AAPL"
    amount := 15
    sale_price := 50
    sale_date := ⟨2024, 4, 1⟩
    description := none }

/-- A create request with a negative amount that satisfies every pydantic
constraint of `InvestmentBase` (used as the C9 counterexample). -/
def c9Create : InvestmentCreate :=
  { name := "Apple"
    symbol := "AAPL"
    investment_type := .stocks
    amount := -5
    purchase_price := 100
    purchase_date := ⟨2024, 1, 5⟩
    description := none
    current_price := none
    user_id := none }

/-- C1 (counterexample): on the scenario ledger
[buy AAPL 10@100 on 2024-01-05, buy AAPL 5@120 on 2024-02-10,
sell AAPL 3@150 on 2024-03-01] with granularity=month and no window, the three
snapshots' `invested` values are NOT the claimed [1000, 1700, 1360]: the
claimed February figure miscomputes 10·100 + 5·120 (= 1600, not 1700), and the
claimed March figure 1360 assumes a proportional cost-basis reduction the code
does not perform (`invested = (tbv/net)·net = tbv`). -/
theorem c1_counterexample :
    (get_earnings_analysis c1Ledger none none none none .month).map (·.invested) ≠
      [1000, 1700, 1360] := by
  norm_num +decide [get_earnings_analysis, filterUser, filterType, truthyUserId,
    List.insertionSort, List.orderedInsert, invDateLe, dateLe, dateLeB,
    groupByPeriod, addToGroups, get_period_key, pad4, pad2, padDigits, digitCh,
    keyLe, strLe, strLt, emitLoop, foldPeriod, lookupGroup, foldTx, lookupPos,
    setPos, applyTx, truthyPrice, mkSnapshot, snapshotTotals, snapTotStep, avgPrice, pyOr,
    round2, round_eq, c1Ledger, c1Tx1, c1Tx2, c1Tx3]

/-- C1 (amended): the scenario returns exactly 3 snapshots; the January
snapshot has invested=1000.00 and count=1, the February snapshot
invested=1600.00 and count=1, and the March (final) snapshot reflects
net_amount=12 (with total_bought_value=1600, so invested = (1600/12)·12 =
1600.00) and count=1. -/
theorem c1_scenario :
    (get_earnings_analysis c1Ledger none none none none .month).map
        (fun s => (s.date, s.invested, s.count)) =
      [("2024-01".data, 1000, 1), ("2024-02".data, 1600, 1),
       ("2024-03".data, 1600, 1)] ∧
    lookupPos ((List.insertionSort invDateLe c1Ledger).foldl foldTx [])
      "AAPL" = some ⟨12, 1600, none⟩ := by
  norm_num +decide [get_earnings_analysis, filterUser, filterType, truthyUserId,
    List.insertionSort, List.orderedInsert, invDateLe, dateLe, dateLeB,
    groupByPeriod, addToGroups, get_period_key, pad4, pad2, padDigits, digitCh,
    keyLe, strLe, strLt, emitLoop, foldPeriod, lookupGroup, foldTx, lookupPos,
    setPos, applyTx, truthyPrice, mkSnapshot, snapshotTotals, snapTotStep, avgPrice, pyOr,
    round2, round_eq, c1Ledger, c1Tx1, c1Tx2, c1Tx3]

/-- C3 (counterexample): in the available-positions listing the sell
transaction does NOT contribute zero to the accumulated value: on
[buy 10@100, sell 3@150] the reported `total_invested` is
10·100 − 3·150 = 550, while the buys-only accumulation (as used by the
overview query's CASE guard) is 1000. -/
theorem c3_counterexample :
    (get_available_positions [c3Buy, c3Sell] none none).map (·.total_invested) =
      [550] ∧
    groupBoughtValue [c3Buy, c3Sell] = 1000 ∧ ((550 : ℚ) ≠ 1000) := by
  norm_num +decide [get_available_positions, filterUser, filterType,
    truthyUserId, distinctTriples, groupTxs3, groupNetAmount, groupInvestedAll,
    groupBoughtValue, maxPrice, avgPrice, pyOr, truthyPrice, roundN, round2,
    round_eq, c3Buy, c3Sell, c1Tx1, c1Tx3]

/-- C3 (amended): in the portfolio overview and the earnings time-series the
accumulated bought value sums `amount * purchase_price` over only the
transactions with `amount > 0` — appending a transaction with `amount ≤ 0`
leaves every overview group's `total_bought_value` and every running
position's `total_bought_value` unchanged; but in the available-positions
listing the group's `total_invested` sums `amount * purchase_price` over ALL
transactions, so such a transaction changes it by its own
`amount * purchase_price`. -/
theorem c3_amended (l : List Investment) (t : Investment) (ht : t.amount ≤ 0) :
    (∀ s ty, groupBoughtValue (groupTxs (l ++ [t]) s ty) =
      groupBoughtValue (groupTxs l s ty)) ∧
    (∀ p : PosData, (applyTx p t).total_bought_value = p.total_bought_value) ∧
    (∀ s n ty, groupInvestedAll (groupTxs3 (l ++ [t]) s n ty) =
      groupInvestedAll (groupTxs3 l s n ty) +
        (if t.symbol == s && t.name == n && t.investment_type == ty then
          t.amount * t.purchase_price else 0)) := by
  have hnot : ¬ (0 : ℚ) < t.amount := not_lt.mpr ht
  refine ⟨fun s ty => ?_, fun p => ?_, fun s n ty => ?_⟩
  · simp only [groupTxs, groupBoughtValue, List.filter_append, List.map_append,
      List.sum_append, List.filter_cons, List.filter_nil]
    by_cases h : (t.symbol == s && t.investment_type == ty) = true <;>
      simp [h, hnot]
  · simp [applyTx, hnot]
  · simp only [groupTxs3, groupInvestedAll, List.filter_append, List.map_append,
      List.sum_append, List.filter_cons, List.filter_nil]
    by_cases h : (t.symbol == s && t.name == n && t.investment_type == ty) = true <;>
      simp [h]

/-- Witness for `c3_amended` at the concrete ledger [buy 10@100] and the sell
transaction −3@150. -/
theorem c3_amended_witness :
    c3Sell.amount ≤ 0 ∧
    ((∀ s ty, groupBoughtValue (groupTxs ([c3Buy] ++ [c3Sell]) s ty) =
        groupBoughtValue (groupTxs [c3Buy] s ty)) ∧
      (∀ p : PosData, (applyTx p c3Sell).total_bought_value =
        p.total_bought_value) ∧
      (∀ s n ty, groupInvestedAll (groupTxs3 ([c3Buy] ++ [c3Sell]) s n ty) =
        groupInvestedAll (groupTxs3 [c3Buy] s n ty) +
          (if c3Sell.symbol == s && c3Sell.name == n &&
              c3Sell.investment_type == ty then
            c3Sell.amount * c3Sell.purchase_price else 0))) :=
  ⟨by norm_num [c3Sell, c1Tx3, c1Tx1],
    c3_amended [c3Buy] c3Sell (by norm_num [c3Sell, c1Tx3, c1Tx1])⟩

/-- C4: a sell request against a non-positive available net amount fails with
the 404 NotFound error; a sell request for more than a positive available
amount fails with the 400 InvalidRequest error whose detail carries both the
available and the requested quantity; in both cases the ledger is unchanged
(no transaction is created). -/
theorem c4_sell_failures (ledger : List Investment) (req : InvestmentSell) :
    (availableAmount ledger req.symbol req.user_id ≤ 0 →
      sell_investment ledger req = .error (.notFound req.symbol) ∧
      sellResultLedger ledger req = ledger) ∧
    (0 < availableAmount ledger req.symbol req.user_id →
      availableAmount ledger req.symbol req.user_id < req.amount →
      sell_investment ledger req =
        .error (.insufficientAmount
          (availableAmount ledger req.symbol req.user_id) req.amount) ∧
      sellResultLedger ledger req = ledger) := by
  constructor
  · intro h
    have h1 : sell_investment ledger req = .error (.notFound req.symbol) := by
      simp [sell_investment, h]
    exact ⟨h1, by simp [sellResultLedger, h1]⟩
  · intro h0 hlt
    have h1 : sell_investment ledger req =
        .error (.insufficientAmount
          (availableAmount ledger req.symbol req.user_id) req.amount) := by
      simp [sell_investment, not_le.mpr h0, hlt]
    exact ⟨h1, by simp [sellResultLedger, h1]⟩

/-- Witness for `c4_sell_failures`: on the empty ledger the available amount
is 0 and the sell fails NotFound; on [buy AAPL 10@100] a request for 15 fails
with InvalidRequest carrying (available=10, requested=15). -/
theorem c4_sell_failures_witness :
    (availableAmount [] c4Req.symbol c4Req.user_id ≤ 0 ∧
      sell_investment [] c4Req = .error (.notFound c4Req.symbol) ∧
      sellResultLedger [] c4Req = []) ∧
    (availableAmount [c1Tx1] c4Req.symbol c4Req.user_id = 10 ∧
      c4Req.amount = 15 ∧
      0 < availableAmount [c1Tx1] c4Req.symbol c4Req.user_id ∧
      availableAmount [c1Tx1] c4Req.symbol c4Req.user_id < c4Req.amount ∧
      sell_investment [c1Tx1] c4Req =
        .error (.insufficientAmount
          (availableAmount [c1Tx1] c4Req.symbol c4Req.user_id) c4Req.amount) ∧
      sellResultLedger [c1Tx1] c4Req = [c1Tx1]) := by
  have hav0 : availableAmount [] c4Req.symbol c4Req.user_id = 0 := by
    norm_num [availableAmount, filterUser, truthyUserId, c4Req]
  have hav1 : availableAmount [c1Tx1] c4Req.symbol c4Req.user_id = 10 := by
    norm_num +decide [availableAmount, filterUser, truthyUserId, c4Req, c1Tx1]
  have hle : availableAmount [] c4Req.symbol c4Req.user_id ≤ 0 := le_of_eq hav0
  have h0 : 0 < availableAmount [c1Tx1] c4Req.symbol c4Req.user_id := by
    rw [hav1]; norm_num
  have hlt : availableAmount [c1Tx1] c4Req.symbol c4Req.user_id < c4Req.amount := by
    rw [hav1]; norm_num [c4Req]
  have h1 := (c4_sell_failures [] c4Req).1 hle
  have h2 := (c4_sell_failures [c1Tx1] c4Req).2 h0 hlt
  exact ⟨⟨hle, h1.1, h1.2⟩, ⟨hav1, by norm_num [c4Req], h0, hlt, h2.1, h2.2⟩⟩

/-- C5: a sell request with `0 < amount ≤ available` succeeds, appending
exactly one new transaction with `amount = -abs(requested)`,
`purchase_price = sale_price`, `purchase_date = sale_date`,
`current_price = null`, without touching prior transactions; selling exactly
the available amount drives the symbol's net available amount to 0. -/
theorem c5_sell_success (ledger : List Investment) (req : InvestmentSell)
    (hpos : 0 < req.amount)
    (hle : req.amount ≤ availableAmount ledger req.symbol req.user_id) :
    ∃ ref, ledger.find? (fun t => t.symbol == req.symbol) = some ref ∧
      sell_investment ledger req = .ok (ledger ++ [mkSellTx req ref], mkSellTx req ref) ∧
      (mkSellTx req ref).amount = -|req.amount| ∧
      (mkSellTx req ref).purchase_price = req.sale_price ∧
      (mkSellTx req ref).purchase_date = req.sale_date ∧
      (mkSellTx req ref).current_price = none ∧
      availableAmount (ledger ++ [mkSellTx req ref]) req.symbol req.user_id =
        availableAmount ledger req.symbol req.user_id - req.amount := by
  have hav : 0 < availableAmount ledger req.symbol req.user_id := lt_of_lt_of_le hpos hle
  -- the symbol filter is non-empty, hence `find?` succeeds
  have hne : ledger.filter (fun t => t.symbol == req.symbol) ≠ [] := by
    intro hempty
    rw [availableAmount, hempty] at hav
    rcases huser : truthyUserId req.user_id with _ | _ <;>
      simp [filterUser, huser] at hav
  have hfind : (ledger.find? (fun t => t.symbol == req.symbol)).isSome := by
    rw [List.find?_isSome]
    by_contra hno
    push_neg at hno
    exact hne (List.filter_eq_nil_iff.mpr (fun a ha => by simpa using hno a ha))
  obtain ⟨ref, hf⟩ := Option.isSome_iff_exists.mp hfind
  refine ⟨ref, hf, ?_, rfl, rfl, rfl, rfl, ?_⟩
  · simp [sell_investment, not_le.mpr hav, not_lt.mpr hle, hf]
  · have habs : |req.amount| = req.amount := abs_of_pos hpos
    simp [availableAmount, filterUser, List.filter_append, mkSellTx, habs]
    rcases huser : truthyUserId req.user_id with _ | _ <;>
      simp [huser, sub_eq_add_neg]

/-- Witness for `c5_sell_success`: selling 10 AAPL at 50 against
[buy AAPL 10@100] (available = 10 = requested). -/
theorem c5_sell_success_witness :
    0 < (10 : ℚ) ∧
    (10 : ℚ) ≤ availableAmount [c1Tx1] "AAPL" none ∧
    (∃ ref, List.find? (fun t => t.symbol == "AAPL") [c1Tx1] = some ref ∧
      sell_investment [c1Tx1] { c4Req with amount := 10 } =
        .ok ([c1Tx1] ++ [mkSellTx { c4Req with amount := 10 } ref],
          mkSellTx { c4Req with amount := 10 } ref) ∧
      (mkSellTx { c4Req with amount := 10 } ref).amount = -|(10 : ℚ)| ∧
      (mkSellTx { c4Req with amount := 10 } ref).purchase_price = 50 ∧
      (mkSellTx { c4Req with amount := 10 } ref).purchase_date = ⟨2024, 4, 1⟩ ∧
      (mkSellTx { c4Req with amount := 10 } ref).current_price = none ∧
      availableAmount ([c1Tx1] ++ [mkSellTx { c4Req with amount := 10 } ref])
          "AAPL" none =
        availableAmount [c1Tx1] "AAPL" none - 10) :=
  ⟨by norm_num,
    by norm_num +decide [availableAmount, filterUser, truthyUserId, c1Tx1],
    c5_sell_success [c1Tx1] { c4Req with amount := 10 } (by norm_num)
      (by norm_num +decide [availableAmount, filterUser, truthyUserId, c4Req, c1Tx1])⟩

/-- C7: the guarded average-price expression
`total_bought_value / net_amount if net_amount > 0 else 0` (used by the
portfolio overview at line 93, the earnings series at line 243 and the
available-positions listing at line 374) never performs a division by zero —
its fallible model always returns a value — and it is 0 whenever
`net_amount ≤ 0`. -/
theorem c7_avg_price_guard (net tbv : ℚ) :
    avgPriceChecked net tbv = some (avgPrice net tbv) ∧
    (net ≤ 0 → avgPrice net tbv = 0) := by
  constructor
  · by_cases h : 0 < net
    · have hne : net ≠ 0 := ne_of_gt h
      simp [avgPriceChecked, avgPrice, pyDiv, h, hne]
    · simp [avgPriceChecked, avgPrice, h]
  · intro hle
    have h : ¬ 0 < net := not_lt.mpr hle
    simp [avgPrice, h]

/-- Witness for `c7_avg_price_guard` at net = −1, tbv = 5. -/
theorem c7_avg_price_guard_witness :
    avgPriceChecked (-1) 5 = some (avgPrice (-1) 5) ∧
    ((-1 : ℚ) ≤ 0 → avgPrice (-1) 5 = 0) :=
  c7_avg_price_guard (-1) 5

/-- C9 (counterexample): a create request with `amount = -5` (and all other
fields valid) PASSES validation — `InvestmentBase.amount` carries no `gt=0`
constraint (it is documented as "positive for buy, negative for sell") — so
the claim that every create request with `amount <= 0` is rejected is false. -/
theorem c9_counterexample :
    c9Create.amount ≤ 0 ∧ investmentCreateValid c9Create = true := by
  constructor
  · norm_num [c9Create]
  · norm_num +decide [investmentCreateValid, validStr, validOptStr, validOptPos,
      c9Create]

/-- C9 (amended): a sell request with non-positive amount or non-positive
sale price fails pydantic validation, and a create request with non-positive
purchase price fails validation; but a create request's `amount` is
unconstrained (negative amounts are deliberately accepted as sell rows). -/
theorem c9_validation (r : InvestmentSell) (c : InvestmentCreate) :
    (r.amount ≤ 0 ∨ r.sale_price ≤ 0 → investmentSellValid r = false) ∧
    (c.purchase_price ≤ 0 → investmentCreateValid c = false) := by
  constructor
  · rintro (h | h)
    · have : decide (0 < r.amount) = false := decide_eq_false (not_lt.mpr h)
      simp [investmentSellValid, this]
    · have : decide (0 < r.sale_price) = false := decide_eq_false (not_lt.mpr h)
      simp [investmentSellValid, this]
  · intro h
    have : decide (0 < c.purchase_price) = false := decide_eq_false (not_lt.mpr h)
    simp [investmentCreateValid, this]

/-- Witness for `c9_validation`: a sell of amount −2 at price 50 fails
validation, and a create at purchase price −3 fails validation. -/
theorem c9_validation_witness :
    ((({ c4Req with amount := -2 } : InvestmentSell).amount ≤ 0 ∨
        ({ c4Req with amount := -2 } : InvestmentSell).sale_price ≤ 0) ∧
      investmentSellValid { c4Req with amount := -2 } = false) ∧
    (({ c9Create with purchase_price := -3 } : InvestmentCreate).purchase_price ≤ 0 ∧
      investmentCreateValid { c9Create with purchase_price := -3 } = false) := by
  constructor
  · exact ⟨Or.inl (by norm_num),
      (c9_validation { c4Req with amount := -2 } c9Create).1
        (Or.inl (by norm_num))⟩
  · exact ⟨by norm_num,
      (c9_validation c4Req { c9Create with purchase_price := -3 }).2
        (by norm_num)⟩

/-- C10: passing `user_id = 0` is falsy in the Python truthiness test
`if user_id:` and therefore behaves exactly like omitting `user_id`: the
transaction listing, the portfolio overview, the earnings time-series, the
available-amount computation, and the sell validation outcome all coincide
with the unfiltered (all-users, including null `user_id`) results. -/
theorem c10_user_id_zero (ledger : List Investment) (skip limit : Nat)
    (ty : Option InvestmentType) (sd ed : Option PDate) (ab : Granularity)
    (req : InvestmentSell) :
    get_investments ledger skip limit (some 0) ty sd ed =
      get_investments ledger skip limit none ty sd ed ∧
    get_portfolio_overview ledger (some 0) ty =
      get_portfolio_overview ledger none ty ∧
    get_earnings_analysis ledger (some 0) ty sd ed ab =
      get_earnings_analysis ledger none ty sd ed ab ∧
    availableAmount ledger req.symbol (some 0) =
      availableAmount ledger req.symbol none ∧
    sellErrorOf ledger { req with user_id := some 0 } =
      sellErrorOf ledger { req with user_id := none } := by
  have hu : filterUser (some 0) = filterUser none := by
    funext l
    simp [filterUser, truthyUserId]
  refine ⟨?_, ?_, ?_, ?_, ?_⟩
  · simp [get_investments, hu]
  · simp [get_portfolio_overview, hu]
  · simp [get_earnings_analysis, hu]
  · simp [availableAmount, hu]
  · have hav : availableAmount ledger req.symbol (some 0) =
        availableAmount ledger req.symbol none := by
      simp [availableAmount, hu]
    simp only [sellErrorOf, sell_investment, hav]
    rcases le_or_lt (availableAmount ledger req.symbol none) 0 with h | h
    · rw [if_pos h, if_pos h]
    · rw [if_neg (not_le.mpr h), if_neg (not_le.mpr h)]
      by_cases h2 : availableAmount ledger req.symbol none < req.amount
      · rw [if_pos h2, if_pos h2]
      · rw [if_neg h2, if_neg h2]
        cases ledger.find? (fun t => t.symbol == req.symbol) <;> rfl

/-! ## Lexicographic order on keys: basic lemmas -/

theorem charToNat_inj {a b : Char} (h : a.toNat = b.toNat) : a = b :=
  Char.eq_of_val_eq (UInt32.ext h)

theorem strLt_irrefl (a : Key) : strLt a a = false := by
  induction a with
  | nil => rfl
  | cons x xs ih => simp [strLt, ih]

theorem strLt_trans : ∀ {a b c : Key},
    strLt a b = true → strLt b c = true → strLt a c = true := by
  intro a
  induction a with
  | nil =>
    intro b c hab hbc
    cases b with
    | nil => exact absurd hab (by simp [strLt])
    | cons y ys =>
      cases c with
      | nil => exact absurd hbc (by simp [strLt])
      | cons z zs => simp [strLt]
  | cons x xs ih =>
    intro b c hab hbc
    cases b with
    | nil => exact absurd hab (by simp [strLt])
    | cons y ys =>
      cases c with
      | nil => exact absurd hbc (by simp [strLt])
      | cons z zs =>
        simp only [strLt, Bool.or_eq_true, Bool.and_eq_true, decide_eq_true_eq,
          beq_iff_eq] at hab hbc ⊢
        rcases hab with hab | ⟨heq, htl⟩
        · rcases hbc with hbc | ⟨heq2, _⟩
          · exact Or.inl (Nat.lt_trans hab hbc)
          · exact Or.inl (heq2 ▸ hab)
        · subst heq
          rcases hbc with hbc | ⟨heq2, htl2⟩
          · exact Or.inl hbc
          · exact Or.inr ⟨heq2, ih htl htl2⟩

theorem strLt_antisymm_false : ∀ {a b : Key},
    strLt a b = false → strLt b a = false → a = b := by
  intro a
  induction a with
  | nil =>
    intro b hab _
    cases b with
    | nil => rfl
    | cons y ys => exact absurd hab (by simp [strLt])
  | cons x xs ih =>
    intro b hab hba
    cases b with
    | nil => exact absurd hba (by simp [strLt])
    | cons y ys =>
      simp only [strLt, Bool.or_eq_false_iff, Bool.and_eq_false_iff,
        decide_eq_false_iff_not, beq_eq_false_iff_ne, ne_eq] at hab hba
      have hxy : x = y := charToNat_inj (by omega)
      subst hxy
      rcases hab.2 with h | h
      · exact absurd rfl h
      · rcases hba.2 with h2 | h2
        · exact absurd rfl h2
        · rw [ih h h2]

theorem strLt_asymm {a b : Key} (h : strLt a b = true) : strLt b a = false := by
  rcases hba : strLt b a with _ | _
  · rfl
  · have := strLt_trans h hba
    rw [strLt_irrefl] at this
    simp at this

theorem strLe_iff {a b : Key} : strLe a b = true ↔ strLt b a = false := by
  simp [strLe]

theorem strLe_refl (a : Key) : strLe a a = true :=
  strLe_iff.mpr (strLt_irrefl a)

theorem strLe_of_strLt {a b : Key} (h : strLt a b = true) : strLe a b = true :=
  strLe_iff.mpr (strLt_asymm h)

theorem strLe_total (a b : Key) : strLe a b = true ∨ strLe b a = true := by
  rcases h : strLt b a with _ | _
  · exact Or.inl (strLe_iff.mpr h)
  · exact Or.inr (strLe_iff.mpr (strLt_asymm h))

theorem strLe_trans : ∀ {a b c : Key},
    strLe a b = true → strLe b c = true → strLe a c = true := by
  intro a b c h1 h2
  rw [strLe_iff] at h1 h2 ⊢
  rcases h : strLt c a with _ | _
  · rfl
  · rcases hbc : strLt b c with _ | _
    · have : b = c := strLt_antisymm_false hbc h2
      subst this
      rw [h] at h1
      exact h1
    · have := strLt_trans hbc h
      rw [this] at h1
      exact h1

instance : IsTotal Key keyLe := ⟨strLe_total⟩

instance : IsTrans Key keyLe := ⟨fun _ _ _ => strLe_trans⟩

/-! ## Period-grouping lemmas -/

theorem addToGroups_map_fst (gs : List (Key × List Investment)) (k : Key)
    (inv : Investment) :
    (addToGroups gs k inv).map (·.1) =
      if k ∈ gs.map (·.1) then gs.map (·.1) else gs.map (·.1) ++ [k] := by
  induction gs with
  | nil => simp [addToGroups]
  | cons g gs ih =>
    rcases g with ⟨k', l⟩
    by_cases h : k = k'
    · subst h
      simp [addToGroups]
    · simp only [addToGroups, if_neg h, List.map_cons, ih, List.mem_cons]
      by_cases hm : k ∈ gs.map (·.1)
      · simp [hm, h]
      · simp [hm, h]

theorem groupByPeriod_nodup (g : Granularity) (invs : List Investment) :
    ((groupByPeriod g invs).map (·.1)).Nodup := by
  suffices H : ∀ (l : List Investment) (gs : List (Key × List Investment)),
      (gs.map (·.1)).Nodup →
      ((l.foldl
          (fun gs inv => addToGroups gs (get_period_key inv.purchase_date g) inv)
          gs).map (·.1)).Nodup by
    exact H invs [] (by simp)
  intro l
  induction l with
  | nil => intro gs h; simpa using h
  | cons t l ih =>
    intro gs h
    simp only [List.foldl_cons]
    apply ih
    rw [addToGroups_map_fst]
    by_cases hm : get_period_key t.purchase_date g ∈ gs.map (·.1)
    · rwa [if_pos hm]
    · rw [if_neg hm]
      simp [List.nodup_append, h, hm]

theorem sortedKeys_pairwise (l : List Key) (h : l.Nodup) :
    (List.insertionSort keyLe l).Pairwise (fun a b => strLt a b = true) := by
  have hs : (List.insertionSort keyLe l).Pairwise keyLe :=
    List.sorted_insertionSort keyLe l
  have hnd : (List.insertionSort keyLe l).Nodup :=
    (List.perm_insertionSort keyLe l).nodup_iff.mpr h
  refine (hs.and hnd).imp ?_
  intro a b hab
  rcases hab with ⟨hle, hne⟩
  rcases hab' : strLt a b with _ | _
  · exact absurd (strLt_antisymm_false hab' (strLe_iff.mp hle)) hne
  · rfl

/-! ## Emit-loop lemmas -/

theorem mkSnapshot_date (k : Key) (ps : List (String × PosData)) :
    (mkSnapshot k ps).date = k := rfl

theorem emitLoop_map_date (gs : List (Key × List Investment))
    (ps : List (String × PosData)) (ks : List Key) :
    (emitLoop gs ps ks).map (·.date) = ks := by
  induction ks generalizing ps with
  | nil => rfl
  | cons k ks ih => simp [emitLoop, mkSnapshot_date, ih]

theorem emitLoop_append (gs : List (Key × List Investment))
    (ps : List (String × PosData)) (l1 l2 : List Key) :
    emitLoop gs ps (l1 ++ l2) =
      emitLoop gs ps l1 ++ emitLoop gs (l1.foldl (foldPeriod gs) ps) l2 := by
  induction l1 generalizing ps with
  | nil => rfl
  | cons k l1 ih => simp [emitLoop, ih]

/-- Filtering the displayed periods by an up-closed-false (downward-closed)
predicate commutes with the emit loop on a strictly sorted key list. -/
theorem emitLoop_filter_down (gs : List (Key × List Investment))
    (B : Key → Bool)
    (hB : ∀ a b, strLe a b = true → B a = false → B b = false) :
    ∀ (ks : List Key), ks.Pairwise (fun a b => strLt a b = true) →
    ∀ ps, emitLoop gs ps (ks.filter B) =
      (emitLoop gs ps ks).filter (fun s => B s.date) := by
  intro ks
  induction ks with
  | nil => intro _ _; rfl
  | cons k ks ih =>
    intro hp ps
    rcases List.pairwise_cons.mp hp with ⟨hk, htl⟩
    rcases hBk : B k with _ | _
    · have hall : ∀ j ∈ ks, B j = false := fun j hj =>
        hB k j (strLe_of_strLt (hk j hj)) hBk
      have h1 : (k :: ks).filter B = [] := by
        rw [List.filter_eq_nil_iff]
        intro a ha
        rcases List.mem_cons.mp ha with rfl | ha
        · simp [hBk]
        · simp [hall a ha]
      have h2 : (emitLoop gs (foldPeriod gs ps k) ks).filter
          (fun s => B s.date) = [] := by
        rw [List.filter_eq_nil_iff]
        intro s hs
        have hd : s.date ∈ ks := by
          rw [← emitLoop_map_date gs (foldPeriod gs ps k) ks]
          exact List.mem_map_of_mem _ hs
        simp [hall _ hd]
      rw [h1]
      simp [emitLoop, mkSnapshot_date, hBk, h2]
    · have h1 : (k :: ks).filter B = k :: ks.filter B := by
        simp [List.filter_cons, hBk]
      rw [h1]
      simp [emitLoop, mkSnapshot_date, hBk, ih htl (foldPeriod gs ps k)]

/-- A strictly sorted key list splits as (elements failing an upward-closed
predicate) ++ (elements satisfying it). -/
theorem sorted_filter_split (A : Key → Bool)
    (hA : ∀ a b, strLe a b = true → A a = true → A b = true) :
    ∀ ks : List Key, ks.Pairwise (fun a b => strLt a b = true) →
    ks = ks.filter (fun p => !A p) ++ ks.filter A := by
  intro ks
  induction ks with
  | nil => intro _; rfl
  | cons k ks ih =>
    intro hp
    rcases List.pairwise_cons.mp hp with ⟨hk, htl⟩
    rcases hAk : A k with _ | _
    · simp only [List.filter_cons, hAk, Bool.not_false, ite_true, if_true]
      simpa using ih htl
    · have hall : ∀ j ∈ ks, A j = true := fun j hj =>
        hA k j (strLe_of_strLt (hk j hj)) hAk
      have h1 : ks.filter (fun p => !A p) = [] := by
        rw [List.filter_eq_nil_iff]
        intro a ha
        simp [hall a ha]
      have h2 : ks.filter A = ks := List.filter_eq_self.mpr hall
      simp [List.filter_cons, hAk, h1, h2]

/-- When the displayed periods are non-empty, the pre-roll set (period keys
strictly before the first displayed key) is exactly the set of keys failing
the lower window bound. -/
theorem preroll_filter_eq (A B : Key → Bool)
    (hA : ∀ a b, strLe a b = true → A a = true → A b = true)
    (hB : ∀ a b, strLe a b = true → B a = false → B b = false)
    (ks : List Key) (hp : ks.Pairwise (fun a b => strLt a b = true))
    (d0 : Key) (rest : List Key)
    (hd : ks.filter (fun p => A p && B p) = d0 :: rest) :
    ks.filter (fun p => strLt p d0) = ks.filter (fun p => !A p) := by
  have hd0mem : d0 ∈ ks.filter (fun p => A p && B p) := by
    rw [hd]; exact List.mem_cons_self d0 rest
  have hd0 : A d0 = true ∧ B d0 = true := by
    have := (List.mem_filter.mp hd0mem).2
    exact Bool.and_eq_true_iff.mp this
  have hdisp_pw : (ks.filter (fun p => A p && B p)).Pairwise
      (fun a b => strLt a b = true) := hp.filter _
  have hd0min : ∀ p ∈ ks.filter (fun p => A p && B p), strLe d0 p = true := by
    intro p hpmem
    rw [hd] at hpmem
    rcases List.mem_cons.mp hpmem with rfl | hpmem
    · exact strLe_refl p
    · rw [hd] at hdisp_pw
      exact strLe_of_strLt ((List.pairwise_cons.mp hdisp_pw).1 p hpmem)
  apply List.filter_congr
  intro p hpmem
  rcases hap : A p with _ | _
  · -- `A p = false`: `p` is strictly below `d0`
    simp only [Bool.not_false]
    rcases hlt : strLt p d0 with _ | _
    · exfalso
      have hle : strLe d0 p = true := strLe_iff.mpr hlt
      have := hA d0 p hle hd0.1
      rw [hap] at this
      exact Bool.false_ne_true this
    · rfl
  · -- `A p = true`: `p` is in the window (B also holds below d0), so not below `d0`
    simp only [Bool.not_true]
    rcases hlt : strLt p d0 with _ | _
    · rfl
    · exfalso
      have hBp : B p = true := by
        rcases hbp : B p with _ | _
        · have := hB p d0 (strLe_of_strLt hlt) hbp
          rw [hd0.2] at this
          exact absurd this.symm Bool.false_ne_true
        · rfl
      have hpdisp : p ∈ ks.filter (fun p => A p && B p) :=
        List.mem_filter.mpr ⟨hpmem, by simp [hap, hBp]⟩
      have := hd0min p hpdisp
      rw [strLe_iff] at this
      rw [hlt] at this
      simp at this

/-- Core of C6 for a given lower-bound predicate `A` (upward closed) and
upper-bound predicate `B` (downward false-closed): pre-rolling the keys before
the first displayed key and emitting the displayed keys equals filtering the
unwindowed snapshot list. -/
theorem emit_window_preroll (gs : List (Key × List Investment)) (ks : List Key)
    (A B : Key → Bool) (hp : ks.Pairwise (fun a b => strLt a b = true))
    (hA : ∀ a b, strLe a b = true → A a = true → A b = true)
    (hB : ∀ a b, strLe a b = true → B a = false → B b = false) :
    emitLoop gs
      (match (ks.filter A).filter B with
       | d0 :: _ => (ks.filter (fun p => strLt p d0)).foldl (foldPeriod gs) []
       | [] => [])
      ((ks.filter A).filter B) =
    (emitLoop gs [] ks).filter (fun s => A s.date && B s.date) := by
  have hpA : (ks.filter A).Pairwise (fun a b => strLt a b = true) := hp.filter _
  rcases hdisp : (ks.filter A).filter B with _ | ⟨d0, rest⟩
  · simp only [emitLoop]
    symm
    rw [List.filter_eq_nil_iff]
    intro s hs hcon
    have hd : s.date ∈ ks := by
      rw [← emitLoop_map_date gs [] ks]
      exact List.mem_map_of_mem _ hs
    rcases Bool.and_eq_true_iff.mp hcon with ⟨hA1, hB1⟩
    have : s.date ∈ (ks.filter A).filter B :=
      List.mem_filter.mpr ⟨List.mem_filter.mpr ⟨hd, hA1⟩, hB1⟩
    rw [hdisp] at this
    exact (List.not_mem_nil _) this
  · have hdisp' : ks.filter (fun p => A p && B p) = d0 :: rest := by
      rw [← hdisp, List.filter_filter]
      exact List.filter_congr (fun p _ => by rw [Bool.and_comm])
    have hpre : ks.filter (fun p => strLt p d0) = ks.filter (fun p => !A p) :=
      preroll_filter_eq A B hA hB ks hp d0 rest hdisp'
    show emitLoop gs ((ks.filter (fun p => strLt p d0)).foldl (foldPeriod gs) [])
        (d0 :: rest) =
      (emitLoop gs [] ks).filter (fun s => A s.date && B s.date)
    rw [hpre]
    have hsplit := sorted_filter_split A hA ks hp
    conv_rhs => rw [hsplit]
    rw [emitLoop_append, List.filter_append]
    have hpart1 : (emitLoop gs [] (ks.filter (fun p => !A p))).filter
        (fun s => A s.date && B s.date) = [] := by
      rw [List.filter_eq_nil_iff]
      intro s hs
      have hd : s.date ∈ ks.filter (fun p => !A p) := by
        rw [← emitLoop_map_date gs [] (ks.filter (fun p => !A p))]
        exact List.mem_map_of_mem _ hs
      have hfa : A s.date = false := by
        have := (List.mem_filter.mp hd).2
        simpa using this
      simp [hfa]
    rw [hpart1, List.nil_append]
    have hpart2 : (emitLoop gs
        ((ks.filter (fun p => !A p)).foldl (foldPeriod gs) []) (ks.filter A)).filter
          (fun s => A s.date && B s.date) =
        (emitLoop gs
          ((ks.filter (fun p => !A p)).foldl (foldPeriod gs) []) (ks.filter A)).filter
          (fun s => B s.date) := by
      apply List.filter_congr
      intro s hs
      have hd : s.date ∈ ks.filter A := by
        rw [← emitLoop_map_date gs
          ((ks.filter (fun p => !A p)).foldl (foldPeriod gs) []) (ks.filter A)]
        exact List.mem_map_of_mem _ hs
      have hfa : A s.date = true := (List.mem_filter.mp hd).2
      simp [hfa]
    rw [hpart2]
    rw [← emitLoop_filter_down gs B hB (ks.filter A) hpA]
    rw [hdisp]

/-- The windowed earnings series equals the unwindowed series filtered to the
window (shared between several results). -/
theorem earnings_window_filter_eq (ledger : List Investment) (u : Option Int)
    (ty : Option InvestmentType) (sd ed : Option PDate) (g : Granularity) :
    get_earnings_analysis ledger u ty sd ed g =
      (get_earnings_analysis ledger u ty none none g).filter
        (fun s => inWindow sd ed g s.date) := by
  simp only [get_earnings_analysis]
  rcases hemp : (List.insertionSort invDateLe (filterType ty (filterUser u ledger))).isEmpty
    with _ | _
  · -- non-empty ledger
    simp only [hemp, Bool.false_eq_true, if_false]
    have hp := sortedKeys_pairwise
      ((groupByPeriod g (List.insertionSort invDateLe (filterType ty (filterUser u ledger)))).map (·.1))
      (groupByPeriod_nodup g (List.insertionSort invDateLe (filterType ty (filterUser u ledger))))
    cases sd with
    | none =>
      cases ed with
      | none => simp [inWindow]
      | some e =>
        have hB : ∀ a b, strLe a b = true →
            strLe a (get_period_key e g) = false →
            strLe b (get_period_key e g) = false := by
          intro a b hab hfa
          rcases hfb : strLe b (get_period_key e g) with _ | _
          · rfl
          · rw [strLe_trans hab hfb] at hfa
            simp at hfa
        have := emitLoop_filter_down
          (groupByPeriod g (List.insertionSort invDateLe (filterType ty (filterUser u ledger))))
          (fun p => strLe p (get_period_key e g)) hB _ hp []
        simpa [inWindow] using this
    | some s =>
      have hA : ∀ a b, strLe a b = true →
          strLe (get_period_key s g) a = true →
          strLe (get_period_key s g) b = true := by
        intro a b hab hsa
        exact strLe_trans hsa hab
      cases ed with
      | none =>
        have := emit_window_preroll
          (groupByPeriod g (List.insertionSort invDateLe (filterType ty (filterUser u ledger))))
          (List.insertionSort keyLe
            ((groupByPeriod g (List.insertionSort invDateLe (filterType ty (filterUser u ledger)))).map (·.1)))
          (fun p => strLe (get_period_key s g) p) (fun _ => true) hp hA
          (by intro a b _ hfa; simp at hfa)
        simpa [inWindow, List.filter_true] using this
      | some e =>
        have hB : ∀ a b, strLe a b = true →
            strLe a (get_period_key e g) = false →
            strLe b (get_period_key e g) = false := by
          intro a b hab hfa
          rcases hfb : strLe b (get_period_key e g) with _ | _
          · rfl
          · rw [strLe_trans hab hfb] at hfa
            simp at hfa
        have := emit_window_preroll
          (groupByPeriod g (List.insertionSort invDateLe (filterType ty (filterUser u ledger))))
          (List.insertionSort keyLe
            ((groupByPeriod g (List.insertionSort invDateLe (filterType ty (filterUser u ledger)))).map (·.1)))
          (fun p => strLe (get_period_key s g) p)
          (fun p => strLe p (get_period_key e g)) hp hA hB
        simpa [inWindow] using this
  · -- empty ledger: both sides are []
    simp [hemp]

/-- C6: the `start_date`/`end_date` window of the earnings time-series is
applied to the bucket key, with all transactions of periods before the first
displayed one pre-rolled into the running positions: the windowed series
equals the unwindowed series restricted to the snapshots whose period key lies
in the window. In particular a transaction dated before `start_date` but in
the same bucket as `start_date` is included in that bucket's (displayed)
totals, and the first displayed snapshot carries the full net amounts and cost
basis from history outside the display window. -/
theorem c6_bucket_window (ledger : List Investment) (u : Option Int)
    (ty : Option InvestmentType) (sd ed : Option PDate) (g : Granularity) :
    get_earnings_analysis ledger u ty sd ed g =
      (get_earnings_analysis ledger u ty none none g).filter
        (fun s => inWindow sd ed g s.date) :=
  earnings_window_filter_eq ledger u ty sd ed g

/-! ## Association-list lemmas for the running positions -/

theorem lookupPos_isSome_iff (ps : List (String × PosData)) (s : String) :
    (lookupPos ps s).isSome ↔ s ∈ ps.map (·.1) := by
  induction ps with
  | nil => simp [lookupPos]
  | cons e ps ih =>
    rcases e with ⟨s', p⟩
    by_cases h : s = s'
    · subst h; simp [lookupPos]
    · simp [lookupPos, h, ih]

theorem lookupPos_setPos_self (ps : List (String × PosData)) (s : String)
    (p : PosData) :
    lookupPos (setPos ps s p) s =
      if (lookupPos ps s).isSome then some p else none := by
  induction ps with
  | nil => simp [setPos, lookupPos]
  | cons e ps ih =>
    rcases e with ⟨s', p'⟩
    by_cases h : s = s'
    · subst h; simp [setPos, lookupPos]
    · simp [setPos, lookupPos, h, ih]

theorem lookupPos_setPos_ne (ps : List (String × PosData)) (s s' : String)
    (p : PosData) (h : s' ≠ s) :
    lookupPos (setPos ps s p) s' = lookupPos ps s' := by
  induction ps with
  | nil => simp [setPos, lookupPos]
  | cons e ps ih =>
    rcases e with ⟨s'', p'⟩
    by_cases h2 : s = s''
    · subst h2; simp [setPos, lookupPos, h]
    · by_cases h3 : s' = s''
      · subst h3; simp [setPos, lookupPos, h2]
      · simp [setPos, lookupPos, h2, h3, ih]

theorem lookupPos_append (ps qs : List (String × PosData)) (s : String) :
    lookupPos (ps ++ qs) s =
      if (lookupPos ps s).isSome then lookupPos ps s else lookupPos qs s := by
  induction ps with
  | nil => simp [lookupPos]
  | cons e ps ih =>
    rcases e with ⟨s', p⟩
    by_cases h : s = s'
    · subst h; simp [lookupPos]
    · simp [lookupPos, h, ih]

theorem setPos_map_fst (ps : List (String × PosData)) (s : String) (p : PosData) :
    (setPos ps s p).map (·.1) = ps.map (·.1) := by
  induction ps with
  | nil => simp [setPos]
  | cons e ps ih =>
    rcases e with ⟨s', p'⟩
    by_cases h : s = s'
    · subst h; simp [setPos]
    · simp [setPos, h, ih]

theorem lookupPos_of_mem_nodup (ps : List (String × PosData))
    (h : (ps.map (·.1)).Nodup) (e : String × PosData) (he : e ∈ ps) :
    lookupPos ps e.1 = some e.2 := by
  induction ps with
  | nil => simp at he
  | cons f ps ih =>
    rcases List.mem_cons.mp he with rfl | he2
    · rcases e with ⟨s, p⟩
      simp [lookupPos]
    · rcases f with ⟨s', p'⟩
      have hne : e.1 ≠ s' := by
        intro hcon
        have : e.1 ∈ ps.map (·.1) := List.mem_map_of_mem _ he2
        rw [hcon] at this
        exact (List.nodup_cons.mp (by simpa using h)).1 this
      simp only [lookupPos, if_neg hne]
      exact ih (List.nodup_cons.mp (by simpa using h)).2 he2

/-! ## The running-position fold, characterised per symbol -/

theorem foldTx_lookup (ps : List (String × PosData)) (t : Investment)
    (s : String) :
    lookupPos (foldTx ps t) s =
      if s = t.symbol then
        some (applyTx ((lookupPos ps t.symbol).getD ⟨0, 0, t.current_price⟩) t)
      else lookupPos ps s := by
  unfold foldTx
  rcases hl : lookupPos ps t.symbol with _ | p0
  · by_cases hs : s = t.symbol
    · subst hs
      rw [lookupPos_append, hl]
      simp [lookupPos]
    · rw [lookupPos_append, if_neg hs]
      rcases hls : lookupPos ps s with _ | q
      · simp [hls, lookupPos, hs]
      · simp [hls]
  · by_cases hs : s = t.symbol
    · subst hs
      rw [lookupPos_setPos_self, hl]
      simp
    · rw [lookupPos_setPos_ne ps t.symbol s _ hs, if_neg hs]

theorem foldTx_map_fst (ps : List (String × PosData)) (t : Investment) :
    (foldTx ps t).map (·.1) =
      if t.symbol ∈ ps.map (·.1) then ps.map (·.1)
      else ps.map (·.1) ++ [t.symbol] := by
  unfold foldTx
  rcases hl : lookupPos ps t.symbol with _ | p0
  · have : ¬ t.symbol ∈ ps.map (·.1) := by
      rw [← lookupPos_isSome_iff, hl]
      simp
    simp [this]
  · have : t.symbol ∈ ps.map (·.1) := by
      rw [← lookupPos_isSome_iff, hl]
      simp
    simp [setPos_map_fst, this]

theorem symList_append_singleton (txs : List Investment) (t : Investment) :
    symList (txs ++ [t]) =
      if t.symbol ∈ symList txs then symList txs
      else symList txs ++ [t.symbol] := by
  simp [symList, List.foldl_append]

theorem symList_mem (txs : List Investment) : ∀ (s : String),
    s ∈ symList txs ↔ ∃ t ∈ txs, t.symbol = s := by
  induction txs using List.reverseRecOn with
  | nil => intro s; simp [symList]
  | append_singleton txs t ih =>
    intro s
    rw [symList_append_singleton]
    by_cases h : t.symbol ∈ symList txs
    · rw [if_pos h, ih]
      constructor
      · rintro ⟨t', ht', rfl⟩
        exact ⟨t', by simp [ht'], rfl⟩
      · rintro ⟨t', ht', rfl⟩
        rcases List.mem_append.mp ht' with ht2 | ht2
        · exact ⟨t', ht2, rfl⟩
        · rcases List.mem_singleton.mp ht2 with rfl
          exact (ih t'.symbol).mp h
    · rw [if_neg h]
      rw [List.mem_append, List.mem_singleton, ih]
      constructor
      · rintro (⟨t', ht', rfl⟩ | rfl)
        · exact ⟨t', by simp [ht'], rfl⟩
        · exact ⟨t, by simp, rfl⟩
      · rintro ⟨t', ht', rfl⟩
        rcases List.mem_append.mp ht' with ht2 | ht2
        · exact Or.inl ⟨t', ht2, rfl⟩
        · rcases List.mem_singleton.mp ht2 with rfl
          exact Or.inr rfl

theorem symList_nodup (txs : List Investment) : (symList txs).Nodup := by
  induction txs using List.reverseRecOn with
  | nil => simp [symList]
  | append_singleton txs t ih =>
    rw [symList_append_singleton]
    by_cases h : t.symbol ∈ symList txs
    · rwa [if_pos h]
    · rw [if_neg h]
      simp [List.nodup_append, ih, h]

theorem foldState_map_fst (txs : List Investment) :
    ((txs.foldl foldTx []).map (·.1)) = symList txs := by
  induction txs using List.reverseRecOn with
  | nil => rfl
  | append_singleton txs t ih =>
    rw [List.foldl_append, List.foldl_cons, List.foldl_nil, foldTx_map_fst, ih,
      symList_append_singleton]

theorem cpFold_append_singleton (txs : List Investment) (t : Investment)
    (s : String) :
    cpFold (txs ++ [t]) s =
      if t.symbol == s then
        some (match cpFold txs s with
          | none => t.current_price
          | some c => if truthyPrice t.current_price then t.current_price else c)
      else cpFold txs s := by
  simp only [cpFold, List.foldl_append, List.foldl_cons, List.foldl_nil]

theorem symNet_append_singleton (txs : List Investment) (t : Investment)
    (s : String) :
    symNet (txs ++ [t]) s =
      symNet txs s + (if t.symbol == s then t.amount else 0) := by
  simp only [symNet, List.filter_append, List.map_append, List.sum_append]
  rcases h : (t.symbol == s) with _ | _ <;> simp [List.filter_cons, h]

theorem symTbv_append_singleton (txs : List Investment) (t : Investment)
    (s : String) :
    symTbv (txs ++ [t]) s =
      symTbv txs s +
        (if t.symbol == s then
          (if 0 < t.amount then t.amount * t.purchase_price else 0) else 0) := by
  simp only [symTbv, List.filter_append, List.map_append, List.sum_append]
  rcases h : (t.symbol == s) with _ | _ <;> simp [List.filter_cons, h]

theorem cpFold_eq_none (txs : List Investment) : ∀ (s : String),
    cpFold txs s = none ↔ ∀ t ∈ txs, (t.symbol == s) = false := by
  induction txs using List.reverseRecOn with
  | nil => intro s; simp [cpFold]
  | append_singleton txs t ih =>
    intro s
    rw [cpFold_append_singleton]
    rcases h : (t.symbol == s) with _ | _
    · rw [if_neg (by simp [h]), ih]
      constructor
      · intro H t' ht'
        rcases List.mem_append.mp ht' with ht2 | ht2
        · exact H t' ht2
        · rcases List.mem_singleton.mp ht2 with rfl
          exact h
      · intro H t' ht'
        exact H t' (by simp [ht'])
    · rw [if_pos (by simp [h])]
      constructor
      · intro hcon
        exact absurd hcon (Option.some_ne_none _)
      · intro H
        exact absurd (H t (by simp)) (by simp [h])

theorem foldState_lookup (txs : List Investment) : ∀ s : String,
    lookupPos (txs.foldl foldTx []) s =
      match cpFold txs s with
      | none => none
      | some cp => some ⟨symNet txs s, symTbv txs s, cp⟩ := by
  induction txs using List.reverseRecOn with
  | nil => intro s; rfl
  | append_singleton txs t ih =>
    intro s
    rw [List.foldl_append, List.foldl_cons, List.foldl_nil, foldTx_lookup,
      cpFold_append_singleton, symNet_append_singleton, symTbv_append_singleton]
    by_cases hs : s = t.symbol
    · subst hs
      rw [if_pos rfl, ih t.symbol]
      simp only [beq_self_eq_true, if_true]
      rcases hcp : cpFold txs t.symbol with _ | cp
      · have hnone : ∀ t' ∈ txs, (t'.symbol == t.symbol) = false :=
          (cpFold_eq_none txs t.symbol).mp hcp
        have hnet : symNet txs t.symbol = 0 := by
          simp only [symNet]
          rw [List.filter_eq_nil_iff.mpr (fun a ha => by simp [hnone a ha])]
          rfl
        have htbv : symTbv txs t.symbol = 0 := by
          simp only [symTbv]
          rw [List.filter_eq_nil_iff.mpr (fun a ha => by simp [hnone a ha])]
          rfl
        simp [applyTx, hnet, htbv, ite_self]
      · simp [applyTx]
    · rw [if_neg hs, ih s]
      have hbeq : (t.symbol == s) = false :=
        beq_eq_false_iff_ne.mpr (fun hcon => hs hcon.symm)
      simp [hbeq]

/-! ## Totals loops as sums -/

theorem snapTotStep_spec (acc : ℚ × ℚ × Nat) (e : String × PosData) :
    snapTotStep acc e =
      (acc.1 + entryInvested e, acc.2.1 + entryCV e, acc.2.2 + entryCnt e) := by
  rcases h : decide (0 < e.2.net_amount) with _ | _
  · have h' : ¬ 0 < e.2.net_amount := of_decide_eq_false h
    simp [snapTotStep, entryInvested, entryCV, entryCnt, h']
  · have h' : 0 < e.2.net_amount := of_decide_eq_true h
    simp [snapTotStep, entryInvested, entryCV, entryCnt, h']

theorem foldl_snapTotStep (ps : List (String × PosData)) :
    ∀ acc : ℚ × ℚ × Nat,
      ps.foldl snapTotStep acc =
        (acc.1 + (ps.map entryInvested).sum, acc.2.1 + (ps.map entryCV).sum,
          acc.2.2 + (ps.map entryCnt).sum) := by
  induction ps with
  | nil => intro acc; simp
  | cons e ps ih =>
    intro acc
    rw [List.foldl_cons, snapTotStep_spec, ih]
    simp [add_assoc]

theorem snapshotTotals_fst (ps : List (String × PosData)) :
    (snapshotTotals ps).1 = (ps.map entryInvested).sum := by
  rw [snapshotTotals, foldl_snapTotStep]
  simp

theorem snapshotTotals_snd (ps : List (String × PosData)) :
    (snapshotTotals ps).2.1 = (ps.map entryCV).sum := by
  rw [snapshotTotals, foldl_snapTotStep]
  simp

theorem overviewStep_fst (acc : ℚ × ℚ × Nat × List (InvestmentType × TypeAgg))
    (row : OverviewRow) :
    (overviewStep acc row).1 = acc.1 + rowInvested row := by
  rcases h : decide (0 < row.net_amount) with _ | _
  · have h' : ¬ 0 < row.net_amount := of_decide_eq_false h
    simp [overviewStep, rowInvested, h']
  · have h' : 0 < row.net_amount := of_decide_eq_true h
    simp [overviewStep, rowInvested, h']

theorem overviewStep_snd (acc : ℚ × ℚ × Nat × List (InvestmentType × TypeAgg))
    (row : OverviewRow) :
    (overviewStep acc row).2.1 = acc.2.1 + rowCV row := by
  rcases h : decide (0 < row.net_amount) with _ | _
  · have h' : ¬ 0 < row.net_amount := of_decide_eq_false h
    simp [overviewStep, rowCV, h']
  · have h' : 0 < row.net_amount := of_decide_eq_true h
    simp [overviewStep, rowCV, h']

theorem foldl_overviewStep (rows : List OverviewRow) :
    ∀ acc : ℚ × ℚ × Nat × List (InvestmentType × TypeAgg),
      (rows.foldl overviewStep acc).1 = acc.1 + (rows.map rowInvested).sum ∧
      (rows.foldl overviewStep acc).2.1 = acc.2.1 + (rows.map rowCV).sum := by
  induction rows with
  | nil => intro acc; simp
  | cons row rows ih =>
    intro acc
    rw [List.foldl_cons]
    rcases ih (overviewStep acc row) with ⟨h1, h2⟩
    rw [h1, h2, overviewStep_fst, overviewStep_snd]
    simp [add_assoc]

/-! ## The final fold state over all periods -/

theorem foldl_foldPeriod_eq (gs : List (Key × List Investment)) (ks : List Key) :
    ∀ ps, ks.foldl (foldPeriod gs) ps =
      ((ks.map (lookupGroup gs)).flatten).foldl foldTx ps := by
  induction ks with
  | nil => intro ps; rfl
  | cons k ks ih =>
    intro ps
    rw [List.foldl_cons, List.map_cons, List.flatten_cons, List.foldl_append, ih]
    rfl

theorem lookupGroup_of_mem_nodup (gs : List (Key × List Investment))
    (h : (gs.map (·.1)).Nodup) (e : Key × List Investment) (he : e ∈ gs) :
    lookupGroup gs e.1 = e.2 := by
  induction gs with
  | nil => simp at he
  | cons f gs ih =>
    rcases List.mem_cons.mp he with rfl | he2
    · rcases e with ⟨k, l⟩
      simp [lookupGroup]
    · rcases f with ⟨k', l'⟩
      have hne : e.1 ≠ k' := by
        intro hcon
        have : e.1 ∈ gs.map (·.1) := List.mem_map_of_mem _ he2
        rw [hcon] at this
        exact (List.nodup_cons.mp (by simpa using h)).1 this
      simp only [lookupGroup, if_neg hne]
      exact ih (List.nodup_cons.mp (by simpa using h)).2 he2

theorem map_lookupGroup (gs : List (Key × List Investment))
    (h : (gs.map (·.1)).Nodup) :
    (gs.map (·.1)).map (lookupGroup gs) = gs.map (·.2) := by
  rw [List.map_map]
  exact List.map_congr_left (fun e he => lookupGroup_of_mem_nodup gs h e he)

theorem addToGroups_flatten_perm (gs : List (Key × List Investment)) (k : Key)
    (t : Investment) :
    ((addToGroups gs k t).map (·.2)).flatten.Perm
      ((gs.map (·.2)).flatten ++ [t]) := by
  induction gs with
  | nil => simp [addToGroups]
  | cons e gs ih =>
    rcases e with ⟨k', l⟩
    by_cases h : k = k'
    · subst h
      have e1 : addToGroups ((k, l) :: gs) k t = (k, l ++ [t]) :: gs := by
        simp [addToGroups]
      rw [e1, List.map_cons, List.flatten_cons, List.map_cons, List.flatten_cons,
        List.append_assoc, List.append_assoc]
      exact List.Perm.append_left l List.perm_append_comm
    · have e1 : addToGroups ((k', l) :: gs) k t = (k', l) :: addToGroups gs k t := by
        simp [addToGroups, h]
      rw [e1, List.map_cons, List.flatten_cons, List.map_cons, List.flatten_cons]
      refine (ih.append_left l).trans ?_
      rw [← List.append_assoc]

theorem groupByPeriod_flatten_perm (g : Granularity) (invs : List Investment) :
    ((groupByPeriod g invs).map (·.2)).flatten.Perm invs := by
  suffices H : ∀ (l : List Investment) (gs : List (Key × List Investment)),
      ((l.foldl
          (fun gs inv => addToGroups gs (get_period_key inv.purchase_date g) inv)
          gs).map (·.2)).flatten.Perm ((gs.map (·.2)).flatten ++ l) by
    simpa using H invs []
  intro l
  induction l with
  | nil => intro gs; simp
  | cons t l ih =>
    intro gs
    rw [List.foldl_cons]
    refine (ih _).trans ?_
    refine ((addToGroups_flatten_perm gs _ t).append_right l).trans ?_
    rw [List.append_assoc]
    rfl

/-! ## `maxPrice` and `cpFold` witnesses -/

theorem maxPrice_append_singleton (l : List (Option ℚ)) (c : Option ℚ) :
    maxPrice (l ++ [c]) =
      match maxPrice l, c with
      | none, c => c
      | some m, none => some m
      | some m, some c => some (max m c) := by
  simp only [maxPrice, List.foldl_append, List.foldl_cons, List.foldl_nil]

theorem maxPrice_eq_none (l : List (Option ℚ)) :
    maxPrice l = none ↔ ∀ x ∈ l, x = none := by
  induction l using List.reverseRecOn with
  | nil => simp [maxPrice]
  | append_singleton l c ih =>
    rw [maxPrice_append_singleton]
    rcases hm : maxPrice l with _ | m
    · rcases c with _ | c0
      · constructor
        · intro _ x hx
          rcases List.mem_append.mp hx with hx2 | hx2
          · exact ih.mp hm x hx2
          · simpa using hx2
        · intro _
          rfl
      · constructor
        · intro hcon
          exact absurd hcon (by simp)
        · intro H
          exact absurd (H (some c0) (by simp)) (by simp)
    · rcases c with _ | c0
      · constructor
        · intro hcon
          exact absurd hcon (by simp)
        · intro H
          have h0 : maxPrice l = none := ih.mpr (fun x hx => H x (by simp [hx]))
          rw [h0] at hm
          exact absurd hm (by simp)
      · constructor
        · intro hcon
          exact absurd hcon (by simp)
        · intro H
          have h0 : maxPrice l = none := ih.mpr (fun x hx => H x (by simp [hx]))
          rw [h0] at hm
          exact absurd hm (by simp)

theorem maxPrice_mem (l : List (Option ℚ)) : ∀ m : ℚ,
    maxPrice l = some m → some m ∈ l := by
  induction l using List.reverseRecOn with
  | nil => intro m h; simp [maxPrice] at h
  | append_singleton l c ih =>
    intro m h
    rw [maxPrice_append_singleton] at h
    rcases hm : maxPrice l with _ | m'
    · rw [hm] at h
      rcases c with _ | c0
      · simp at h
      · simp at h
        subst h
        simp
    · rw [hm] at h
      rcases c with _ | c0
      · simp at h
        subst h
        exact List.mem_append_left _ (ih m' hm)
      · simp at h
        rcases max_choice m' c0 with hc | hc
        · rw [hc] at h
          subst h
          exact List.mem_append_left _ (ih m' hm)
        · rw [hc] at h
          subst h
          simp

theorem maxPrice_isSome_of_mem (l : List (Option ℚ)) (c : ℚ)
    (h : some c ∈ l) : (maxPrice l).isSome := by
  induction l using List.reverseRecOn with
  | nil => simp at h
  | append_singleton l c' ih =>
    rw [maxPrice_append_singleton]
    rcases List.mem_append.mp h with h2 | h2
    · rcases hm : maxPrice l with _ | m
      · rw [hm] at ih
        simp at ih
        exact absurd (ih h2) (by simp)
      · rcases c' with _ | c0 <;> simp
    · rcases List.mem_singleton.mp h2 with rfl
      rcases maxPrice l with _ | m <;> simp

theorem cpFold_mem (txs : List Investment) (s : String) : ∀ cp,
    cpFold txs s = some cp → ∃ t ∈ txs, t.symbol = s ∧ t.current_price = cp := by
  induction txs using List.reverseRecOn with
  | nil => intro cp h; simp [cpFold] at h
  | append_singleton txs t ih =>
    intro cp h
    rw [cpFold_append_singleton] at h
    rcases hb : (t.symbol == s) with _ | _
    · rw [if_neg (by simp [hb])] at h
      obtain ⟨t', ht', hs', hcp'⟩ := ih cp h
      exact ⟨t', by simp [ht'], hs', hcp'⟩
    · rw [if_pos (by simp [hb])] at h
      rcases hprev : cpFold txs s with _ | cprev
      · rw [hprev] at h
        simp at h
        exact ⟨t, by simp, by simpa using hb, h⟩
      · rw [hprev] at h
        rcases htr : truthyPrice t.current_price with _ | _
        · rw [htr] at h
          simp at h
          obtain ⟨t', ht', hs', hcp'⟩ := ih cprev hprev
          exact ⟨t', by simp [ht'], hs', by rw [hcp', h]⟩
        · rw [htr] at h
          simp at h
          exact ⟨t, by simp, by simpa using hb, h⟩

theorem cpFold_truthy (txs : List Investment) (s : String)
    (h : ∃ t ∈ txs, t.symbol = s ∧ truthyPrice t.current_price = true) :
    ∃ c : ℚ, cpFold txs s = some (some c) ∧ c ≠ 0 ∧
      ∃ t ∈ txs, t.symbol = s ∧ t.current_price = some c := by
  induction txs using List.reverseRecOn with
  | nil => simp at h
  | append_singleton txs t ih =>
    rw [cpFold_append_singleton]
    obtain ⟨t0, ht0, hs0, htr0⟩ := h
    rcases List.mem_append.mp ht0 with ht0' | ht0'
    · -- a truthy witness exists in `txs`
      obtain ⟨c, hc, hcne, t1, ht1, hs1, hcp1⟩ := ih ⟨t0, ht0', hs0, htr0⟩
      rcases hb : (t.symbol == s) with _ | _
      · rw [if_neg (by simp [hb])]
        exact ⟨c, hc, hcne, t1, by simp [ht1], hs1, hcp1⟩
      · rw [if_pos (by simp [hb]), hc]
        rcases htr : truthyPrice t.current_price with _ | _
        · exact ⟨c, by simp [htr], hcne, t1, by simp [ht1], hs1, hcp1⟩
        · rcases hcp : t.current_price with _ | c2
          · rw [hcp] at htr; simp [truthyPrice] at htr
          · have hc2 : c2 ≠ 0 := by
              rw [hcp] at htr
              simpa [truthyPrice] using htr
            exact ⟨c2, by simp [htr, hcp], hc2, t, by simp, by simpa using hb, hcp⟩
    · rcases List.mem_singleton.mp ht0' with rfl
      have hb : (t0.symbol == s) = true := by simp [hs0]
      rw [if_pos (by simp [hb])]
      rcases hcp : t0.current_price with _ | c2
      · rw [hcp] at htr0; simp [truthyPrice] at htr0
      · have hc2 : c2 ≠ 0 := by
          rw [hcp] at htr0
          simpa [truthyPrice] using htr0
        have htrc2 : truthyPrice (some c2) = true := by
          rw [← hcp]
          exact htr0
        rcases hprev : cpFold txs s with _ | cprev
        · exact ⟨c2, by simp [hcp], hc2, t0, by simp, hs0, hcp⟩
        · exact ⟨c2, by simp [htrc2], hc2, t0, by simp, hs0, hcp⟩

/-! ## Pair groups vs symbol groups -/

theorem distinctPairs_append_singleton (l : List Investment) (t : Investment) :
    distinctPairs (l ++ [t]) =
      if (t.symbol, t.investment_type) ∈ distinctPairs l then distinctPairs l
      else distinctPairs l ++ [(t.symbol, t.investment_type)] := by
  simp [distinctPairs, List.foldl_append]

theorem distinctPairs_mem (l : List Investment) : ∀ p : String × InvestmentType,
    p ∈ distinctPairs l ↔
      ∃ t ∈ l, t.symbol = p.1 ∧ t.investment_type = p.2 := by
  induction l using List.reverseRecOn with
  | nil => intro p; simp [distinctPairs]
  | append_singleton l t ih =>
    intro p
    rw [distinctPairs_append_singleton]
    by_cases h : (t.symbol, t.investment_type) ∈ distinctPairs l
    · rw [if_pos h, ih]
      constructor
      · rintro ⟨t', ht', h1, h2⟩
        exact ⟨t', by simp [ht'], h1, h2⟩
      · rintro ⟨t', ht', h1, h2⟩
        rcases List.mem_append.mp ht' with ht2 | ht2
        · exact ⟨t', ht2, h1, h2⟩
        · rcases List.mem_singleton.mp ht2 with rfl
          obtain ⟨t'', ht'', h3, h4⟩ := (ih _).mp h
          exact ⟨t'', ht'', h3.trans h1, h4.trans h2⟩
    · rw [if_neg h]
      constructor
      · intro hp
        rcases List.mem_append.mp hp with hp2 | hp2
        · obtain ⟨t', ht', h1, h2⟩ := (ih p).mp hp2
          exact ⟨t', by simp [ht'], h1, h2⟩
        · rcases List.mem_singleton.mp hp2 with rfl
          exact ⟨t, by simp, rfl, rfl⟩
      · rintro ⟨t', ht', h1, h2⟩
        rcases List.mem_append.mp ht' with ht2 | ht2
        · exact List.mem_append_left _ ((ih p).mpr ⟨t', ht2, h1, h2⟩)
        · rcases List.mem_singleton.mp ht2 with rfl
          rcases p with ⟨p1, p2⟩
          simp only at h1 h2
          rw [← h1, ← h2]
          exact List.mem_append_right _ (by simp)

theorem distinctPairs_fst (l : List Investment)
    (H2 : ∀ t1 ∈ l, ∀ t2 ∈ l, t1.symbol = t2.symbol →
      t1.investment_type = t2.investment_type) :
    (distinctPairs l).map (·.1) = symList l := by
  induction l using List.reverseRecOn with
  | nil => rfl
  | append_singleton l t ih =>
    have H2l : ∀ t1 ∈ l, ∀ t2 ∈ l, t1.symbol = t2.symbol →
        t1.investment_type = t2.investment_type :=
      fun t1 h1 t2 h2 => H2 t1 (by simp [h1]) t2 (by simp [h2])
    rw [distinctPairs_append_singleton, symList_append_singleton]
    by_cases h : (t.symbol, t.investment_type) ∈ distinctPairs l
    · have hsym : t.symbol ∈ symList l := by
        obtain ⟨t', ht', h1, _⟩ := (distinctPairs_mem l _).mp h
        exact (symList_mem l t.symbol).mpr ⟨t', ht', h1⟩
      rw [if_pos h, if_pos hsym, ih H2l]
    · have hsym : ¬ t.symbol ∈ symList l := by
        intro hcon
        obtain ⟨t', ht', h1⟩ := (symList_mem l t.symbol).mp hcon
        have hty : t'.investment_type = t.investment_type :=
          H2 t' (by simp [ht']) t (by simp) h1
        exact h ((distinctPairs_mem l _).mpr ⟨t', ht', h1, hty⟩)
      rw [if_neg h, if_neg hsym, List.map_append, ih H2l]
      rfl

theorem groupTxs_eq_symbol_filter (F : List Investment) (s : String)
    (τ : InvestmentType)
    (H2 : ∀ t1 ∈ F, ∀ t2 ∈ F, t1.symbol = t2.symbol →
      t1.investment_type = t2.investment_type)
    (hwit : ∃ t ∈ F, t.symbol = s ∧ t.investment_type = τ) :
    groupTxs F s τ = F.filter (fun t => t.symbol == s) := by
  obtain ⟨t0, ht0, hs0, hτ0⟩ := hwit
  apply List.filter_congr
  intro t ht
  rcases hb : (t.symbol == s) with _ | _
  · simp [hb]
  · have hts : t.symbol = s := by simpa using hb
    have hty : t.investment_type = τ := by
      rw [← hτ0]
      exact H2 t ht t0 ht0 (hts.trans hs0.symm)
    simp [hb, hty]

/-! ## The effective current price agrees between the fold and the
`max` query (under the single-mark-price hypothesis) -/

theorem effectiveCp_eq (F L : List Investment) (s : String) (hLF : L.Perm F)
    (H3 : ∀ t1 ∈ F, ∀ t2 ∈ F, t1.symbol = t2.symbol → ∀ c1 c2 : ℚ,
      t1.current_price = some c1 → t2.current_price = some c2 → c1 = c2)
    (cpE : Option ℚ) (hcp : cpFold L s = some cpE) (x : ℚ) :
    pyOr cpE x =
      pyOr (maxPrice ((F.filter (fun t => t.symbol == s)).map (·.current_price)))
        x := by
  by_cases htr : ∃ t ∈ F, t.symbol = s ∧ truthyPrice t.current_price = true
  · obtain ⟨t0, ht0, hs0, htr0⟩ := htr
    have hwitL : ∃ t ∈ L, t.symbol = s ∧ truthyPrice t.current_price = true :=
      ⟨t0, hLF.mem_iff.mpr ht0, hs0, htr0⟩
    obtain ⟨c, hc, hcne, t1, ht1, hs1, hcp1⟩ := cpFold_truthy L s hwitL
    rw [hcp] at hc
    have hcpE : cpE = some c := by injection hc
    rcases hcp0 : t0.current_price with _ | c0
    · rw [hcp0] at htr0
      simp [truthyPrice] at htr0
    have hceq : c = c0 :=
      H3 t1 (hLF.mem_iff.mp ht1) t0 ht0 (hs1.trans hs0.symm) c c0 hcp1 hcp0
    have hmem : some c0 ∈
        (F.filter (fun t => t.symbol == s)).map (·.current_price) := by
      rw [← hcp0]
      exact List.mem_map_of_mem _ (List.mem_filter.mpr ⟨ht0, by simp [hs0]⟩)
    have hsome := maxPrice_isSome_of_mem _ c0 hmem
    rcases hmax : maxPrice ((F.filter (fun t => t.symbol == s)).map (·.current_price))
      with _ | m
    · rw [hmax] at hsome
      simp at hsome
    · have hm_mem := maxPrice_mem _ m hmax
      obtain ⟨t2, ht2, hcp2⟩ := List.mem_map.mp hm_mem
      have ht2F : t2 ∈ F := (List.mem_filter.mp ht2).1
      have hs2 : t2.symbol = s := by simpa using (List.mem_filter.mp ht2).2
      have hmeq : m = c0 :=
        H3 t2 ht2F t0 ht0 (hs2.trans hs0.symm) m c0 hcp2 hcp0
      have hc0ne : c0 ≠ 0 := hceq ▸ hcne
      rw [hcpE, hceq, hmax, hmeq]
  · push_neg at htr
    obtain ⟨t1, ht1, hs1, hcp1⟩ := cpFold_mem L s cpE hcp
    have ht1F : t1 ∈ F := hLF.mem_iff.mp ht1
    have htr1 : truthyPrice cpE = false := by
      rw [← hcp1]
      exact Bool.not_eq_true _ ▸ htr t1 ht1F hs1
    rcases hmax : maxPrice ((F.filter (fun t => t.symbol == s)).map (·.current_price))
      with _ | m
    · rw [hmax]
      have h1 : pyOr cpE x = x := by simp [pyOr, htr1]
      have h2 : pyOr none x = x := by simp [pyOr, truthyPrice]
      rw [h1, h2]
    · have hm_mem := maxPrice_mem _ m hmax
      obtain ⟨t2, ht2, hcp2⟩ := List.mem_map.mp hm_mem
      have ht2F : t2 ∈ F := (List.mem_filter.mp ht2).1
      have hs2 : t2.symbol = s := by simpa using (List.mem_filter.mp ht2).2
      have htr2 : truthyPrice t2.current_price = false :=
        Bool.not_eq_true _ ▸ htr t2 ht2F hs2
      have hm0 : m = 0 := by
        rw [hcp2] at htr2
        simpa [truthyPrice] using htr2
      rw [hmax, hm0]
      have h1 : pyOr cpE x = x := by simp [pyOr, htr1]
      have h2 : pyOr (some 0) x = x := by simp [pyOr, truthyPrice]
      rw [h1, h2]

/-! ## Permutation invariance of the per-symbol sums -/

theorem symNet_perm {L F : List Investment} (h : L.Perm F) (s : String) :
    symNet L s = symNet F s :=
  ((h.filter _).map _).sum_eq

theorem symTbv_perm {L F : List Investment} (h : L.Perm F) (s : String) :
    symTbv L s = symTbv F s :=
  ((h.filter _).map _).sum_eq

theorem symList_perm {L F : List Investment} (h : L.Perm F) :
    (symList L).Perm (symList F) := by
  apply List.perm_of_nodup_nodup_toFinset_eq (symList_nodup L) (symList_nodup F)
  ext s
  simp only [List.mem_toFinset, symList_mem]
  constructor
  · rintro ⟨t, ht, rfl⟩
    exact ⟨t, h.mem_iff.mp ht, rfl⟩
  · rintro ⟨t, ht, rfl⟩
    exact ⟨t, h.mem_iff.mpr ht, rfl⟩

/-! ## Overview totals as per-symbol sums -/

theorem overview_totals_spec (ledger : List Investment) (u : Option Int)
    (ty : Option InvestmentType)
    (H2 : ∀ t1 ∈ filterType ty (filterUser u ledger),
      ∀ t2 ∈ filterType ty (filterUser u ledger),
      t1.symbol = t2.symbol → t1.investment_type = t2.investment_type) :
    (get_portfolio_overview ledger u ty).total_invested =
      round2 (((symList (filterType ty (filterUser u ledger))).map
        (invOf (filterType ty (filterUser u ledger)))).sum) ∧
    (get_portfolio_overview ledger u ty).total_current_value =
      round2 (((symList (filterType ty (filterUser u ledger))).map
        (cvOf (filterType ty (filterUser u ledger)))).sum) := by
  have hm1 : (overviewRows (filterType ty (filterUser u ledger))).map rowInvested =
      (symList (filterType ty (filterUser u ledger))).map
        (invOf (filterType ty (filterUser u ledger))) := by
    rw [overviewRows, List.map_map,
      ← distinctPairs_fst (filterType ty (filterUser u ledger)) H2, List.map_map]
    apply List.map_congr_left
    intro p hp
    have hg := groupTxs_eq_symbol_filter (filterType ty (filterUser u ledger))
      p.1 p.2 H2 ((distinctPairs_mem _ p).mp hp)
    simp only [Function.comp, rowInvested, invOf, hg, groupNetAmount,
      groupBoughtValue, symNet, symTbv]
  have hm2 : (overviewRows (filterType ty (filterUser u ledger))).map rowCV =
      (symList (filterType ty (filterUser u ledger))).map
        (cvOf (filterType ty (filterUser u ledger))) := by
    rw [overviewRows, List.map_map,
      ← distinctPairs_fst (filterType ty (filterUser u ledger)) H2, List.map_map]
    apply List.map_congr_left
    intro p hp
    have hg := groupTxs_eq_symbol_filter (filterType ty (filterUser u ledger))
      p.1 p.2 H2 ((distinctPairs_mem _ p).mp hp)
    simp only [Function.comp, rowCV, cvOf, hg, groupNetAmount,
      groupBoughtValue, symNet, symTbv]
  constructor
  · simp only [get_portfolio_overview]
    rw [(foldl_overviewStep _ _).1, hm1, zero_add]
  · simp only [get_portfolio_overview]
    rw [(foldl_overviewStep _ _).2, hm2, zero_add]

/-! ## The last unwindowed snapshot as per-symbol sums -/

theorem emitLoop_concat (gs : List (Key × List Investment))
    (ps : List (String × PosData)) (ks : List Key) (k : Key) :
    emitLoop gs ps (ks ++ [k]) =
      emitLoop gs ps ks ++
        [mkSnapshot k ((ks ++ [k]).foldl (foldPeriod gs) ps)] := by
  rw [emitLoop_append]
  congr 1
  rw [List.foldl_append]
  rfl

theorem filter_getLast? {α : Type} (l : List α) (p : α → Bool) (x : α)
    (h : l.getLast? = some x) (hp : p x = true) :
    (l.filter p).getLast? = some x := by
  induction l using List.reverseRecOn with
  | nil => simp at h
  | append_singleton l a ih =>
    rw [List.getLast?_concat] at h
    injection h with h
    subst h
    rw [List.filter_append, show List.filter p [a] = [a] from by simp [hp]]
    exact List.getLast?_concat _

theorem earnings_last_spec (ledger : List Investment) (u : Option Int)
    (ty : Option InvestmentType) (g : Granularity)
    (H3 : ∀ t1 ∈ filterType ty (filterUser u ledger),
      ∀ t2 ∈ filterType ty (filterUser u ledger),
      t1.symbol = t2.symbol → ∀ c1 c2 : ℚ,
      t1.current_price = some c1 → t2.current_price = some c2 → c1 = c2) :
    ∀ s, (get_earnings_analysis ledger u ty none none g).getLast? = some s →
      s.invested = round2 (((symList (filterType ty (filterUser u ledger))).map
        (invOf (filterType ty (filterUser u ledger)))).sum) ∧
      s.current_value =
        round2 (((symList (filterType ty (filterUser u ledger))).map
          (cvOf (filterType ty (filterUser u ledger)))).sum) := by
  intro s hs
  simp only [get_earnings_analysis] at hs
  rcases hemp : (List.insertionSort invDateLe (filterType ty (filterUser u ledger))).isEmpty
    with _ | _
  swap
  · rw [hemp] at hs
    simp at hs
  rw [hemp] at hs
  simp only [Bool.false_eq_true, if_false] at hs
  -- names for the main objects
  rcases List.eq_nil_or_concat
      (List.insertionSort keyLe
        ((groupByPeriod g (List.insertionSort invDateLe (filterType ty (filterUser u ledger)))).map (·.1)))
    with hks | ⟨ks0, klast, hks⟩
  · rw [hks] at hs
    simp [emitLoop] at hs
  rw [List.concat_eq_append] at hks
  rw [hks, emitLoop_concat, List.getLast?_concat] at hs
  injection hs with hs
  subst hs
  -- the final fold state
  rw [← hks]
  rw [foldl_foldPeriod_eq]
  have hnd : (((groupByPeriod g (List.insertionSort invDateLe (filterType ty (filterUser u ledger)))).map (·.1))).Nodup :=
    groupByPeriod_nodup g _
  set L := (((List.insertionSort keyLe
      ((groupByPeriod g (List.insertionSort invDateLe (filterType ty (filterUser u ledger)))).map (·.1))).map
        (lookupGroup (groupByPeriod g (List.insertionSort invDateLe (filterType ty (filterUser u ledger)))))).flatten)
    with hLdef
  have hperm : L.Perm (filterType ty (filterUser u ledger)) := by
    rw [hLdef]
    refine (List.Perm.flatten (List.Perm.map _ (List.perm_insertionSort _ _))).trans ?_
    rw [map_lookupGroup _ hnd]
    exact (groupByPeriod_flatten_perm g _).trans (List.perm_insertionSort _ _)
  -- characterise the final positions
  have hkeys : ((L.foldl foldTx []).map (·.1)) = symList L := foldState_map_fst L
  have hndk : ((L.foldl foldTx []).map (·.1)).Nodup := by
    rw [hkeys]; exact symList_nodup L
  have hentry : ∀ e ∈ L.foldl foldTx [],
      entryInvested e = invOf (filterType ty (filterUser u ledger)) e.1 ∧
      entryCV e = cvOf (filterType ty (filterUser u ledger)) e.1 := by
    intro e he
    have hl := lookupPos_of_mem_nodup _ hndk e he
    rw [foldState_lookup L e.1] at hl
    rcases hcp : cpFold L e.1 with _ | cp
    · rw [hcp] at hl
      simp at hl
    · rw [hcp] at hl
      simp only [Option.some_inj] at hl
      have h2 : e.2 = ⟨symNet L e.1, symTbv L e.1, cp⟩ := hl.symm
      have hnet := symNet_perm hperm e.1
      have htbv := symTbv_perm hperm e.1
      constructor
      · rw [entryInvested, h2, invOf]
        simp only [hnet, htbv]
      · rw [entryCV, h2, cvOf]
        simp only
        rw [hnet, htbv]
        by_cases hpos : 0 < symNet (filterType ty (filterUser u ledger)) e.1
        · rw [if_pos hpos, if_pos hpos,
            effectiveCp_eq (filterType ty (filterUser u ledger)) L e.1 hperm H3 cp hcp]
        · rw [if_neg hpos, if_neg hpos]
  -- convert the sums
  have hsymperm := symList_perm hperm
  constructor
  · show round2 (snapshotTotals (L.foldl foldTx [])).1 = _
    rw [snapshotTotals_fst]
    congr 1
    calc ((L.foldl foldTx []).map entryInvested).sum
        = ((L.foldl foldTx []).map
            (fun e => invOf (filterType ty (filterUser u ledger)) e.1)).sum := by
          rw [List.map_congr_left (fun e he => (hentry e he).1)]
      _ = (((L.foldl foldTx []).map (·.1)).map
            (invOf (filterType ty (filterUser u ledger)))).sum := by
          rw [List.map_map]
          rfl
      _ = ((symList L).map (invOf (filterType ty (filterUser u ledger)))).sum := by
          rw [hkeys]
      _ = ((symList (filterType ty (filterUser u ledger))).map
            (invOf (filterType ty (filterUser u ledger)))).sum :=
          (hsymperm.map _).sum_eq
  · show round2 (snapshotTotals (L.foldl foldTx [])).2.1 = _
    rw [snapshotTotals_snd]
    congr 1
    calc ((L.foldl foldTx []).map entryCV).sum
        = ((L.foldl foldTx []).map
            (fun e => cvOf (filterType ty (filterUser u ledger)) e.1)).sum := by
          rw [List.map_congr_left (fun e he => (hentry e he).2)]
      _ = (((L.foldl foldTx []).map (·.1)).map
            (cvOf (filterType ty (filterUser u ledger)))).sum := by
          rw [List.map_map]
          rfl
      _ = ((symList L).map (cvOf (filterType ty (filterUser u ledger)))).sum := by
          rw [hkeys]
      _ = ((symList (filterType ty (filterUser u ledger))).map
            (cvOf (filterType ty (filterUser u ledger)))).sum :=
          (hsymperm.map _).sum_eq

/-- C2 (counterexample): on the ledger [buy AAPL 1@10 with mark 200 on
2024-01-05, buy AAPL 1@10 with mark 100 on 2024-02-01] — a window (no
start/end) that trivially includes the last period — the last earnings
snapshot's `current_value` is 100·2 = 200 (the fold keeps the last truthy
mark), while the overview's `total_current_value` is max(200,100)·2 = 400:
the two disagree, so the claimed equality fails. -/
theorem c2_counterexample :
    ((get_earnings_analysis [c2Tx1, c2Tx2] none none none none .month).getLast?).map
        (fun s => s.current_value) = some 200 ∧
    (get_portfolio_overview [c2Tx1, c2Tx2] none none).total_current_value = 400 ∧
    ((200 : ℚ) ≠ 400) := by
  refine ⟨?_, ?_, by norm_num⟩
  · norm_num +decide [get_earnings_analysis, filterUser, filterType, truthyUserId,
      List.insertionSort, List.orderedInsert, invDateLe, dateLe, dateLeB,
      groupByPeriod, addToGroups, get_period_key, pad4, pad2, padDigits, digitCh,
      keyLe, strLe, strLt, emitLoop, foldPeriod, lookupGroup, foldTx, lookupPos,
      setPos, applyTx, truthyPrice, mkSnapshot, snapshotTotals, snapTotStep,
      avgPrice, pyOr, round2, round_eq, c2Tx1, c2Tx2, c1Tx1, List.getLast?]
  · norm_num +decide [get_portfolio_overview, overviewRows, overviewStep,
      distinctPairs, groupTxs, groupNetAmount, groupBoughtValue, maxPrice,
      updateByType, filterUser, filterType, truthyUserId, avgPrice, pyOr,
      truthyPrice, round2, round_eq, c2Tx1, c2Tx2, c1Tx1]

/-- C2 (amended): for every ledger and filter such that, among the filtered
transactions, (a) all transactions of a symbol share one `investment_type`
and (b) all non-null `current_price` marks of a symbol are equal, and for
every `start_date`/`end_date` window that includes the chronologically last
period present in the data, the `invested` and `current_value` of the last
snapshot returned by the earnings time-series equal the `total_invested` and
`total_current_value` of the full-history portfolio overview over the same
filtered transactions. -/
theorem c2_last_snapshot (ledger : List Investment) (u : Option Int)
    (ty : Option InvestmentType) (sd ed : Option PDate) (g : Granularity)
    (H2 : ∀ t1 ∈ filterType ty (filterUser u ledger),
      ∀ t2 ∈ filterType ty (filterUser u ledger),
      t1.symbol = t2.symbol → t1.investment_type = t2.investment_type)
    (H3 : ∀ t1 ∈ filterType ty (filterUser u ledger),
      ∀ t2 ∈ filterType ty (filterUser u ledger),
      t1.symbol = t2.symbol → ∀ c1 c2 : ℚ,
      t1.current_price = some c1 → t2.current_price = some c2 → c1 = c2)
    (hwin : ∀ k,
      ((get_earnings_analysis ledger u ty none none g).map (·.date)).getLast? =
        some k → inWindow sd ed g k = true) :
    ∀ s, (get_earnings_analysis ledger u ty sd ed g).getLast? = some s →
      s.invested = (get_portfolio_overview ledger u ty).total_invested ∧
      s.current_value = (get_portfolio_overview ledger u ty).total_current_value := by
  intro s hs
  rw [earnings_window_filter_eq ledger u ty sd ed g] at hs
  rcases hL : (get_earnings_analysis ledger u ty none none g).getLast? with _ | s0
  · rw [List.getLast?_eq_none_iff] at hL
    rw [hL] at hs
    simp at hs
  · have hwin0 : inWindow sd ed g s0.date = true := by
      apply hwin
      rw [List.getLast?_map, hL]
      rfl
    have hfl := filter_getLast? _ (fun s => inWindow sd ed g s.date) s0 hL hwin0
    rw [hfl] at hs
    injection hs with hs
    subst hs
    obtain ⟨h1, h2⟩ := earnings_last_spec ledger u ty g H3 s0 hL
    obtain ⟨h3, h4⟩ := overview_totals_spec ledger u ty H2
    exact ⟨h1.trans h3.symm, h2.trans h4.symm⟩

/-- Witness for `c2_last_snapshot` on the one-transaction ledger
[buy AAPL 10@100]: its single (last) snapshot has invested = current_value =
1000, matching the overview totals. -/
theorem c2_last_snapshot_witness :
    ∃ s, (get_earnings_analysis [c1Tx1] none none none none .month).getLast? =
        some s ∧
      s.invested = (get_portfolio_overview [c1Tx1] none none).total_invested ∧
      s.current_value =
        (get_portfolio_overview [c1Tx1] none none).total_current_value := by
  have hH2 : ∀ t1 ∈ filterType none (filterUser none [c1Tx1]),
      ∀ t2 ∈ filterType none (filterUser none [c1Tx1]),
      t1.symbol = t2.symbol → t1.investment_type = t2.investment_type := by
    intro t1 h1 t2 h2 _
    simp [filterType, filterUser, truthyUserId] at h1 h2
    rw [h1, h2]
  have hH3 : ∀ t1 ∈ filterType none (filterUser none [c1Tx1]),
      ∀ t2 ∈ filterType none (filterUser none [c1Tx1]),
      t1.symbol = t2.symbol → ∀ c1 c2 : ℚ,
      t1.current_price = some c1 → t2.current_price = some c2 → c1 = c2 := by
    intro t1 h1 t2 h2 _ c1 c2 hc1 hc2
    simp [filterType, filterUser, truthyUserId] at h1
    rw [h1] at hc1
    simp [c1Tx1] at hc1
  have hwin : ∀ k,
      ((get_earnings_analysis [c1Tx1] none none none none .month).map
        (·.date)).getLast? = some k →
      inWindow none none .month k = true := by
    intro k _
    simp [inWindow]
  have happ := c2_last_snapshot [c1Tx1] none none none none .month hH2 hH3 hwin
  have hlast : (get_earnings_analysis [c1Tx1] none none none none .month).getLast? =
      some ⟨"2024-01".data, 1000, 1000, 0, 1⟩ := by
    norm_num +decide [get_earnings_analysis, filterUser, filterType, truthyUserId,
      List.insertionSort, List.orderedInsert, invDateLe, dateLe, dateLeB,
      groupByPeriod, addToGroups, get_period_key, pad4, pad2, padDigits, digitCh,
      keyLe, strLe, strLt, emitLoop, foldPeriod, lookupGroup, foldTx, lookupPos,
      setPos, applyTx, truthyPrice, mkSnapshot, snapshotTotals, snapTotStep,
      avgPrice, pyOr, round2, round_eq, c1Tx1, List.getLast?]
  exact ⟨_, hlast, happ _ hlast⟩

/-! ## Decimal digit lists: order, padding, characters -/

theorem padDigits_length (w n : Nat) : (padDigits w n).length = w := by
  induction w generalizing n with
  | zero => rfl
  | succ w ih => simp [padDigits, ih]

theorem padDigits_digits_lt (w n : Nat) : ∀ x ∈ padDigits w n, x < 10 := by
  induction w generalizing n with
  | zero => intro x hx; simp [padDigits] at hx
  | succ w ih =>
    intro x hx
    rw [padDigits] at hx
    rcases List.mem_append.mp hx with h | h
    · exact ih (n / 10) x h
    · rcases List.mem_singleton.mp h with rfl
      exact Nat.mod_lt _ (by norm_num)

theorem lexNatLt_append_iff : ∀ (a b c d : List Nat), a.length = b.length →
    (lexNatLt (a ++ c) (b ++ d) = true ↔
      lexNatLt a b = true ∨ (a = b ∧ lexNatLt c d = true)) := by
  intro a
  induction a with
  | nil =>
    intro b c d h
    rcases b with _ | ⟨y, ys⟩
    · simp [lexNatLt]
    · simp at h
  | cons x xs ih =>
    intro b c d h
    rcases b with _ | ⟨y, ys⟩
    · simp at h
    · have h' : xs.length = ys.length := by simpa using h
      simp only [List.cons_append, lexNatLt, Bool.or_eq_true, Bool.and_eq_true,
        decide_eq_true_eq, beq_iff_eq, List.cons.injEq, List.append_eq]
      rw [ih ys c d h']
      constructor
      · rintro (h1 | ⟨rfl, h2 | ⟨rfl, h3⟩⟩)
        · exact Or.inl (Or.inl h1)
        · exact Or.inl (Or.inr ⟨rfl, h2⟩)
        · exact Or.inr ⟨⟨rfl, rfl⟩, h3⟩
      · rintro ((h1 | ⟨rfl, h2⟩) | ⟨⟨rfl, rfl⟩, h3⟩)
        · exact Or.inl h1
        · exact Or.inr ⟨rfl, Or.inl h2⟩
        · exact Or.inr ⟨rfl, Or.inr ⟨rfl, h3⟩⟩

theorem strLt_append_iff : ∀ (a b c d : List Char), a.length = b.length →
    (strLt (a ++ c) (b ++ d) = true ↔
      strLt a b = true ∨ (a = b ∧ strLt c d = true)) := by
  intro a
  induction a with
  | nil =>
    intro b c d h
    rcases b with _ | ⟨y, ys⟩
    · simp [strLt]
    · simp at h
  | cons x xs ih =>
    intro b c d h
    rcases b with _ | ⟨y, ys⟩
    · simp at h
    · have h' : xs.length = ys.length := by simpa using h
      simp only [List.cons_append, strLt, Bool.or_eq_true, Bool.and_eq_true,
        decide_eq_true_eq, beq_iff_eq, List.cons.injEq, List.append_eq]
      rw [ih ys c d h']
      constructor
      · rintro (h1 | ⟨rfl, h2 | ⟨rfl, h3⟩⟩)
        · exact Or.inl (Or.inl h1)
        · exact Or.inl (Or.inr ⟨rfl, h2⟩)
        · exact Or.inr ⟨⟨rfl, rfl⟩, h3⟩
      · rintro ((h1 | ⟨rfl, h2⟩) | ⟨⟨rfl, rfl⟩, h3⟩)
        · exact Or.inl h1
        · exact Or.inr ⟨rfl, Or.inl h2⟩
        · exact Or.inr ⟨rfl, Or.inr ⟨rfl, h3⟩⟩

theorem padDigits_inj : ∀ (w m n : Nat), m < 10 ^ w → n < 10 ^ w →
    (padDigits w m = padDigits w n ↔ m = n) := by
  intro w
  induction w with
  | zero =>
    intro m n hm hn
    rw [pow_zero, Nat.lt_one_iff] at hm hn
    subst hm
    subst hn
    simp
  | succ w ih =>
    intro m n hm hn
    rw [pow_succ] at hm hn
    have hm' : m / 10 < 10 ^ w := by omega
    have hn' : n / 10 < 10 ^ w := by omega
    rw [padDigits, padDigits]
    constructor
    · intro hh
      obtain ⟨h1, h2⟩ := List.append_inj hh
        (by rw [padDigits_length, padDigits_length])
      have h3 := (ih _ _ hm' hn').mp h1
      simp at h2
      omega
    · intro hh
      subst hh
      rfl

theorem padDigits_lt_iff : ∀ (w m n : Nat), m < 10 ^ w → n < 10 ^ w →
    (lexNatLt (padDigits w m) (padDigits w n) = true ↔ m < n) := by
  intro w
  induction w with
  | zero =>
    intro m n hm hn
    rw [pow_zero, Nat.lt_one_iff] at hm hn
    subst hm
    subst hn
    simp [padDigits, lexNatLt]
  | succ w ih =>
    intro m n hm hn
    rw [pow_succ] at hm hn
    have hm' : m / 10 < 10 ^ w := by omega
    have hn' : n / 10 < 10 ^ w := by omega
    rw [padDigits, padDigits,
      lexNatLt_append_iff _ _ _ _ (by rw [padDigits_length, padDigits_length]),
      ih (m / 10) (n / 10) hm' hn', padDigits_inj w (m / 10) (n / 10) hm' hn']
    have hsing : lexNatLt [m % 10] [n % 10] = true ↔ m % 10 < n % 10 := by
      simp [lexNatLt]
    rw [hsing]
    omega

theorem digitCh_toNat (n : Nat) (h : n < 10) : (digitCh n).toNat = 48 + n := by
  interval_cases n <;> rfl

theorem digitCh_inj (m n : Nat) (hm : m < 10) (hn : n < 10)
    (h : digitCh m = digitCh n) : m = n := by
  have h2 := congrArg Char.toNat h
  rw [digitCh_toNat m hm, digitCh_toNat n hn] at h2
  omega

theorem strLt_map_digitCh : ∀ (ds es : List Nat),
    (∀ x ∈ ds, x < 10) → (∀ x ∈ es, x < 10) →
    (strLt (ds.map digitCh) (es.map digitCh) = true ↔ lexNatLt ds es = true) := by
  intro ds
  induction ds with
  | nil =>
    intro es _ _
    rcases es with _ | ⟨y, ys⟩ <;> simp [strLt, lexNatLt]
  | cons x xs ih =>
    intro es hds hes
    rcases es with _ | ⟨y, ys⟩
    · simp [strLt, lexNatLt]
    · have hx : x < 10 := hds x (by simp)
      have hy : y < 10 := hes y (by simp)
      simp only [List.map_cons, strLt, lexNatLt, Bool.or_eq_true,
        Bool.and_eq_true, decide_eq_true_eq, beq_iff_eq]
      rw [ih ys (fun a ha => hds a (by simp [ha])) (fun a ha => hes a (by simp [ha]))]
      rw [digitCh_toNat x hx, digitCh_toNat y hy]
      constructor
      · rintro (h1 | ⟨h2, h3⟩)
        · exact Or.inl (by omega)
        · exact Or.inr ⟨digitCh_inj x y hx hy h2, h3⟩
      · rintro (h1 | ⟨rfl, h3⟩)
        · exact Or.inl (by omega)
        · exact Or.inr ⟨rfl, h3⟩

theorem map_digitCh_inj : ∀ (ds es : List Nat),
    (∀ x ∈ ds, x < 10) → (∀ x ∈ es, x < 10) →
    (ds.map digitCh = es.map digitCh ↔ ds = es) := by
  intro ds
  induction ds with
  | nil =>
    intro es _ _
    rcases es with _ | ⟨y, ys⟩ <;> simp
  | cons x xs ih =>
    intro es hds hes
    rcases es with _ | ⟨y, ys⟩
    · simp
    · have hx : x < 10 := hds x (by simp)
      have hy : y < 10 := hes y (by simp)
      simp only [List.map_cons, List.cons.injEq]
      rw [ih ys (fun a ha => hds a (by simp [ha])) (fun a ha => hes a (by simp [ha]))]
      constructor
      · rintro ⟨h1, h2⟩
        exact ⟨digitCh_inj x y hx hy h1, h2⟩
      · rintro ⟨rfl, h2⟩
        exact ⟨rfl, h2⟩

theorem pad4_lt_iff (m n : Nat) (hm : m < 10 ^ 4) (hn : n < 10 ^ 4) :
    (strLt (pad4 m) (pad4 n) = true ↔ m < n) := by
  rw [pad4, pad4,
    strLt_map_digitCh _ _ (padDigits_digits_lt _ _) (padDigits_digits_lt _ _),
    padDigits_lt_iff 4 m n hm hn]

theorem pad4_inj (m n : Nat) (hm : m < 10 ^ 4) (hn : n < 10 ^ 4) :
    (pad4 m = pad4 n ↔ m = n) := by
  rw [pad4, pad4,
    map_digitCh_inj _ _ (padDigits_digits_lt _ _) (padDigits_digits_lt _ _),
    padDigits_inj 4 m n hm hn]

theorem pad2_lt_iff (m n : Nat) (hm : m < 10 ^ 2) (hn : n < 10 ^ 2) :
    (strLt (pad2 m) (pad2 n) = true ↔ m < n) := by
  rw [pad2, pad2,
    strLt_map_digitCh _ _ (padDigits_digits_lt _ _) (padDigits_digits_lt _ _),
    padDigits_lt_iff 2 m n hm hn]

theorem pad2_inj (m n : Nat) (hm : m < 10 ^ 2) (hn : n < 10 ^ 2) :
    (pad2 m = pad2 n ↔ m = n) := by
  rw [pad2, pad2,
    map_digitCh_inj _ _ (padDigits_digits_lt _ _) (padDigits_digits_lt _ _),
    padDigits_inj 2 m n hm hn]

theorem natStr_eq_pad4 (n : Nat) (h1 : 1000 ≤ n) (h2 : n ≤ 9999) :
    natStr n = pad4 n := by
  rw [natStr, pad4]
  congr 1
  rw [natDigits, dif_neg (by omega : ¬ n < 10),
    natDigits, dif_neg (by omega : ¬ n / 10 < 10),
    natDigits, dif_neg (by omega : ¬ n / 10 / 10 < 10),
    natDigits, dif_pos (by omega : n / 10 / 10 / 10 < 10)]
  have hmod : n / 10 / 10 / 10 % 10 = n / 10 / 10 / 10 :=
    Nat.mod_eq_of_lt (by omega)
  simp [padDigits, hmod]

theorem pad4_length (n : Nat) : (pad4 n).length = 4 := by
  rw [pad4, List.length_map, padDigits_length]

theorem strLt_cons_same (ch : Char) (c d : List Char) :
    strLt (ch :: c) (ch :: d) = strLt c d := by
  simp [strLt]

theorem pad2_length (n : Nat) : (pad2 n).length = 2 := by
  rw [pad2, List.length_map, padDigits_length]

/-! ## Calendar bounds -/

theorem daysInMonth_le (y m : Nat) : daysInMonth y m ≤ 31 := by
  simp only [daysInMonth]
  split_ifs <;> omega

theorem ordinalInYear_bounds (d : PDate) (hv : ValidDate d) :
    1 ≤ ordinalInYear d ∧ ordinalInYear d ≤ (if isLeap d.year then 366 else 365) := by
  obtain ⟨y, m, day⟩ := d
  simp only [ValidDate] at hv
  obtain ⟨hm1, hm2, hd1, hd2⟩ := hv
  simp only [ordinalInYear]
  cases hl : isLeap y <;>
    (interval_cases m <;>
      (simp [daysInMonth, hl] at hd2
       simp [daysBeforeMonth, hl]
       omega))

theorem isLeap_iff (y : Nat) :
    isLeap y = true ↔ ((y % 4 = 0 ∧ y % 100 ≠ 0) ∨ y % 400 = 0) := by
  simp [isLeap]

set_option maxHeartbeats 1000000 in
theorem daysBeforeYear_succ (y : Nat) (h : 1 ≤ y) :
    daysBeforeYear (y + 1) = daysBeforeYear y + (if isLeap y then 366 else 365) := by
  by_cases hl : isLeap y = true
  · rw [if_pos hl]
    rw [isLeap_iff] at hl
    simp only [daysBeforeYear]
    omega
  · rw [if_neg hl]
    rw [isLeap_iff] at hl
    simp only [daysBeforeYear]
    omega

theorem isoweek1monday_bounds (y : Nat) :
    (daysBeforeYear y : Int) - 2 ≤ isoweek1monday y ∧
    isoweek1monday y ≤ (daysBeforeYear y : Int) + 4 ∧
    isoweek1monday y % 7 = 1 := by
  simp only [isoweek1monday]
  split_ifs with h <;> omega

set_option maxHeartbeats 1600000 in
/-- For a valid date of a 4-digit year, the ISO calendar year stays 4-digit
and the ISO week number lies in `[1, 53]`. -/
theorem isocalendar_range (d : PDate) (hv : ValidDate d)
    (hy1 : 1000 ≤ d.year) (hy2 : d.year ≤ 9999) :
    1000 ≤ (isocalendar d).1 ∧ (isocalendar d).1 ≤ 9999 ∧
    1 ≤ (isocalendar d).2 ∧ (isocalendar d).2 ≤ 53 := by
  have hord := ordinalInYear_bounds d hv
  have hord1 : 1 ≤ ordinalInYear d := hord.1
  have hordU : ordinalInYear d ≤ 366 := by
    rcases hord with ⟨-, h2⟩
    split at h2 <;> omega
  have hw1 := isoweek1monday_bounds d.year
  simp only [isocalendar, toOrdinal]
  split_ifs with hcase1 hcase2
  · -- week < 0: the date lies in the last ISO week of the previous year
    rw [Int.fdiv_eq_ediv _ (by norm_num)] at hcase1
    by_cases h1000 : d.year = 1000
    · exfalso
      rw [h1000] at hcase1
      have e1 : isoweek1monday 1000 = 364876 := by
        norm_num [isoweek1monday, daysBeforeYear]
      have e2 : daysBeforeYear 1000 = 364877 := by norm_num [daysBeforeYear]
      rw [e1, e2] at hcase1
      omega
    · have hy3 : 1001 ≤ d.year := by omega
      have hw0 := isoweek1monday_bounds (d.year - 1)
      have hL := daysBeforeYear_succ (d.year - 1) (by omega)
      rw [show d.year - 1 + 1 = d.year by omega] at hL
      have hLb : daysBeforeYear (d.year - 1) + 365 ≤ daysBeforeYear d.year ∧
          daysBeforeYear d.year ≤ daysBeforeYear (d.year - 1) + 366 := by
        split at hL <;> omega
      dsimp only
      rw [Int.fdiv_eq_ediv _ (by norm_num)]
      omega
  · -- late-December dates belonging to week 1 of the next year
    obtain ⟨hge52, hnext⟩ := hcase2
    by_cases h9999 : d.year = 9999
    · exfalso
      rw [h9999] at hnext
      rw [show (9999 : Nat) + 1 = 10000 from rfl] at hnext
      have e1 : isoweek1monday 10000 = 3652062 := by
        norm_num [isoweek1monday, daysBeforeYear]
      have e2 : daysBeforeYear 9999 = 3651694 := by norm_num [daysBeforeYear]
      have e3 : isLeap 9999 = false := by decide
      have hordU9 : ordinalInYear d ≤ 365 := by
        rcases hord with ⟨-, h2⟩
        rw [h9999, e3] at h2
        simpa using h2
      rw [e1, e2] at hnext
      omega
    · dsimp only
      omega
  · -- the ordinary case: week of the date's own calendar year
    dsimp only
    rw [Int.fdiv_eq_ediv _ (by norm_num)] at hcase1 ⊢
    omega

/-! ## Period-key comparison agrees with bucket comparison -/

theorem strLt_append_same_left : ∀ (s c d : List Char),
    strLt (s ++ c) (s ++ d) = strLt c d := by
  intro s
  induction s with
  | nil => intro c d; rfl
  | cons ch cs ih =>
    intro c d
    rw [List.cons_append, List.cons_append, strLt_cons_same, ih]

theorem strLt_pad4_pad2 (sep : List Char) (y1 m1 y2 m2 : Nat)
    (hy1 : y1 < 10 ^ 4) (hy2 : y2 < 10 ^ 4)
    (hm1 : m1 < 10 ^ 2) (hm2 : m2 < 10 ^ 2) :
    (strLt (pad4 y1 ++ sep ++ pad2 m1) (pad4 y2 ++ sep ++ pad2 m2) = true ↔
      (y1 < y2 ∨ (y1 = y2 ∧ m1 < m2))) := by
  rw [List.append_assoc, List.append_assoc,
    strLt_append_iff _ _ _ _ (by rw [pad4_length, pad4_length]),
    pad4_lt_iff y1 y2 hy1 hy2, pad4_inj y1 y2 hy1 hy2,
    strLt_append_same_left, pad2_lt_iff m1 m2 hm1 hm2]

theorem eq_pad4_pad2 (sep : List Char) (y1 m1 y2 m2 : Nat)
    (hy1 : y1 < 10 ^ 4) (hy2 : y2 < 10 ^ 4)
    (hm1 : m1 < 10 ^ 2) (hm2 : m2 < 10 ^ 2) :
    (pad4 y1 ++ sep ++ pad2 m1 = pad4 y2 ++ sep ++ pad2 m2 ↔
      (y1 = y2 ∧ m1 = m2)) := by
  rw [List.append_assoc, List.append_assoc]
  constructor
  · intro h
    obtain ⟨h1, h2⟩ := List.append_inj h (by rw [pad4_length, pad4_length])
    exact ⟨(pad4_inj y1 y2 hy1 hy2).mp h1,
      (pad2_inj m1 m2 hm1 hm2).mp (List.append_cancel_left h2)⟩
  · rintro ⟨rfl, rfl⟩
    rfl

theorem strLt_day_iff (y1 m1 a1 y2 m2 a2 : Nat)
    (hy1 : y1 < 10 ^ 4) (hy2 : y2 < 10 ^ 4)
    (hm1 : m1 < 10 ^ 2) (hm2 : m2 < 10 ^ 2)
    (ha1 : a1 < 10 ^ 2) (ha2 : a2 < 10 ^ 2) :
    (strLt (pad4 y1 ++ ['-'] ++ pad2 m1 ++ ['-'] ++ pad2 a1)
        (pad4 y2 ++ ['-'] ++ pad2 m2 ++ ['-'] ++ pad2 a2) = true ↔
      (y1 < y2 ∨ (y1 = y2 ∧ (m1 < m2 ∨ (m1 = m2 ∧ a1 < a2))))) := by
  simp only [List.append_assoc]
  rw [strLt_append_iff _ _ _ _ (by rw [pad4_length, pad4_length]),
    strLt_append_same_left,
    strLt_append_iff _ _ _ _ (by rw [pad2_length, pad2_length]),
    strLt_append_same_left,
    pad4_lt_iff y1 y2 hy1 hy2, pad4_inj y1 y2 hy1 hy2,
    pad2_lt_iff m1 m2 hm1 hm2, pad2_inj m1 m2 hm1 hm2,
    pad2_lt_iff a1 a2 ha1 ha2]

theorem eq_day_iff (y1 m1 a1 y2 m2 a2 : Nat)
    (hy1 : y1 < 10 ^ 4) (hy2 : y2 < 10 ^ 4)
    (hm1 : m1 < 10 ^ 2) (hm2 : m2 < 10 ^ 2)
    (ha1 : a1 < 10 ^ 2) (ha2 : a2 < 10 ^ 2) :
    (pad4 y1 ++ ['-'] ++ pad2 m1 ++ ['-'] ++ pad2 a1 =
        pad4 y2 ++ ['-'] ++ pad2 m2 ++ ['-'] ++ pad2 a2 ↔
      (y1 = y2 ∧ m1 = m2 ∧ a1 = a2)) := by
  simp only [List.append_assoc]
  constructor
  · intro h
    obtain ⟨h1, h2⟩ := List.append_inj h (by rw [pad4_length, pad4_length])
    have h2' := List.append_cancel_left h2
    obtain ⟨h3, h4⟩ := List.append_inj h2' (by rw [pad2_length, pad2_length])
    have h4' := List.append_cancel_left h4
    exact ⟨(pad4_inj y1 y2 hy1 hy2).mp h1, (pad2_inj m1 m2 hm1 hm2).mp h3,
      (pad2_inj a1 a2 ha1 ha2).mp h4'⟩
  · rintro ⟨rfl, rfl, rfl⟩
    rfl

theorem lexNatLt_single (a1 a2 : Nat) :
    lexNatLt [a1] [a2] = true ↔ a1 < a2 := by
  simp [lexNatLt]

theorem lexNatLt_pair (a1 b1 a2 b2 : Nat) :
    lexNatLt [a1, b1] [a2, b2] = true ↔ (a1 < a2 ∨ (a1 = a2 ∧ b1 < b2)) := by
  simp [lexNatLt]

theorem lexNatLt_triple (a1 b1 c1 a2 b2 c2 : Nat) :
    lexNatLt [a1, b1, c1] [a2, b2, c2] = true ↔
      (a1 < a2 ∨ (a1 = a2 ∧ (b1 < b2 ∨ (b1 = b2 ∧ c1 < c2)))) := by
  simp [lexNatLt]

/-- C8: for every granularity in {day, week, month, year} and every two valid
transaction dates with 4-digit years (the same millennium), comparing the
`get_period_key` strings with Python string `<` agrees with comparing the
dates' period buckets (calendar (year, month, day) / ISO (week-year, week) /
(year, month) / (year)) chronologically, and equal buckets produce equal
keys. -/
theorem c8_period_key_order (g : Granularity) (d1 d2 : PDate)
    (hv1 : ValidDate d1) (hv2 : ValidDate d2)
    (hy1 : 1000 ≤ d1.year) (hy1' : d1.year ≤ 9999)
    (hy2 : 1000 ≤ d2.year) (hy2' : d2.year ≤ 9999) :
    (strLt (get_period_key d1 g) (get_period_key d2 g) = true ↔
      lexNatLt (bucketOf g d1) (bucketOf g d2) = true) ∧
    (get_period_key d1 g = get_period_key d2 g ↔ bucketOf g d1 = bucketOf g d2) := by
  have hp4 : (10 : Nat) ^ 4 = 10000 := by norm_num
  have hp2 : (10 : Nat) ^ 2 = 100 := by norm_num
  have hY1 : d1.year < 10 ^ 4 := by omega
  have hY2 : d2.year < 10 ^ 4 := by omega
  have hM1 : d1.month < 10 ^ 2 := by
    have h := hv1
    simp only [ValidDate] at h
    omega
  have hM2 : d2.month < 10 ^ 2 := by
    have h := hv2
    simp only [ValidDate] at h
    omega
  have hD1 : d1.day < 10 ^ 2 := by
    have h := hv1
    simp only [ValidDate] at h
    have h31 := daysInMonth_le d1.year d1.month
    omega
  have hD2 : d2.day < 10 ^ 2 := by
    have h := hv2
    simp only [ValidDate] at h
    have h31 := daysInMonth_le d2.year d2.month
    omega
  cases g with
  | day =>
    simp only [get_period_key, bucketOf]
    constructor
    · rw [strLt_day_iff _ _ _ _ _ _ hY1 hY2 hM1 hM2 hD1 hD2, lexNatLt_triple]
    · rw [eq_day_iff _ _ _ _ _ _ hY1 hY2 hM1 hM2 hD1 hD2]
      simp
  | week =>
    have hb1 := isocalendar_range d1 hv1 hy1 hy1'
    have hb2 := isocalendar_range d2 hv2 hy2 hy2'
    have hw1Y : (isocalendar d1).1 < 10 ^ 4 := by omega
    have hw2Y : (isocalendar d2).1 < 10 ^ 4 := by omega
    have hw1W : (isocalendar d1).2 < 10 ^ 2 := by omega
    have hw2W : (isocalendar d2).2 < 10 ^ 2 := by omega
    simp only [get_period_key, bucketOf]
    rw [natStr_eq_pad4 _ hb1.1 hb1.2.1, natStr_eq_pad4 _ hb2.1 hb2.2.1]
    constructor
    · rw [strLt_pad4_pad2 _ _ _ _ _ hw1Y hw2Y hw1W hw2W, lexNatLt_pair]
    · rw [eq_pad4_pad2 _ _ _ _ _ hw1Y hw2Y hw1W hw2W]
      simp
  | month =>
    simp only [get_period_key, bucketOf]
    constructor
    · rw [strLt_pad4_pad2 _ _ _ _ _ hY1 hY2 hM1 hM2, lexNatLt_pair]
    · rw [eq_pad4_pad2 _ _ _ _ _ hY1 hY2 hM1 hM2]
      simp
  | year =>
    simp only [get_period_key, bucketOf]
    rw [natStr_eq_pad4 d1.year hy1 hy1', natStr_eq_pad4 d2.year hy2 hy2']
    constructor
    · rw [pad4_lt_iff _ _ hY1 hY2, lexNatLt_single]
    · rw [pad4_inj _ _ hY1 hY2]
      simp

/-- Witness for C8 at granularity `month`, dates 2024-01-05 and 2024-02-10. -/
theorem c8_period_key_order_witness :
    ValidDate ⟨2024, 1, 5⟩ ∧ ValidDate ⟨2024, 2, 10⟩ ∧
    ((strLt (get_period_key ⟨2024, 1, 5⟩ Granularity.month)
        (get_period_key ⟨2024, 2, 10⟩ Granularity.month) = true ↔
      lexNatLt (bucketOf Granularity.month ⟨2024, 1, 5⟩)
        (bucketOf Granularity.month ⟨2024, 2, 10⟩) = true) ∧
    (get_period_key ⟨2024, 1, 5⟩ Granularity.month =
        get_period_key ⟨2024, 2, 10⟩ Granularity.month ↔
      bucketOf Granularity.month ⟨2024, 1, 5⟩ =
        bucketOf Granularity.month ⟨2024, 2, 10⟩)) :=
  ⟨by simp [ValidDate, daysInMonth, isLeap], by simp [ValidDate, daysInMonth, isLeap],
    c8_period_key_order Granularity.month ⟨2024, 1, 5⟩ ⟨2024, 2, 10⟩
      (by simp [ValidDate, daysInMonth, isLeap]) (by simp [ValidDate, daysInMonth, isLeap])
      (by norm_num) (by norm_num) (by norm_num) (by norm_num)⟩

end InvDash
